import Mathlib

/-!
Verification of the entity/document mapping layer `EntityMongoDB`
(src/EntityMongoDB.js): a shallow embedding of its value model and
operations, plus proofs of the specified properties.

JavaScript values are modelled by the mutual inductive `Value`
(with `VList` for arrays and `VFields` for the ordered own-field list
of an object).  JavaScript `undefined` is the value `Value.undef`;
reading an absent key yields `Value.undef`, as in JavaScript.
-/

mutual

inductive Value : Type where
  | undef : Value
  | vnull : Value
  | vbool : Bool → Value
  | vnum : Int → Value
  | vstr : String → Value
  | oid : String → Value
  | arr : VList → Value
  | obj : VFields → Value

inductive VList : Type where
  | nil : VList
  | cons : Value → VList → VList

inductive VFields : Type where
  | nil : VFields
  | fcons : String → Value → VFields → VFields

end

namespace Value

/-- Own-property lookup on a field list; absent keys give `undef` (JS semantics). -/
def lookupF (k : String) : VFields → Value
  | .nil => .undef
  | .fcons k2 v t => if k2 = k then v else lookupF k t

/-- JS property read `v[k]`: only objects carry own fields here.
(The lodash path helpers in the source are only ever used with
string keys into objects; array indexing by numeric path segments
is not exercised by this code base and is not modelled.) -/
def lookupV (k : String) : Value → Value
  | .obj fs => lookupF k fs
  | _ => Value.undef

/-- Does a field list carry the key (even with value `undefined`)? -/
def hasOwnF (k : String) : VFields → Bool
  | .nil => false
  | .fcons k2 _ t => if k2 = k then true else hasOwnF k t

def hasOwnV (k : String) : Value → Bool
  | .obj fs => hasOwnF k fs
  | _ => false

/-- JS assignment / object-spread insertion: an existing key is updated in
place (keeping its position), a new key is appended at the end. -/
def insertJS : VFields → String → Value → VFields
  | .nil, k, v => .fcons k v .nil
  | .fcons k2 w t, k, v =>
      if k2 = k then .fcons k2 v t else .fcons k2 w (insertJS t k v)

/-- Object spread `{...base, ...add}`: fold the added fields into the base. -/
def spreadFields (base : VFields) : VFields → VFields
  | .nil => base
  | .fcons k v t => spreadFields (insertJS base k v) t

/-- Top-level `_.omitBy(_.isUndefined, ·)`: drop fields whose value is `undefined`. -/
def omitU : VFields → VFields
  | .nil => .nil
  | .fcons k v t =>
      match v with
      | .undef => omitU t
      | w => .fcons k w (omitU t)

def fieldsLen : VFields → Nat
  | .nil => 0
  | .fcons _ _ t => fieldsLen t + 1

/-- The own fields of a value; non-objects have none (spreading a primitive
spreads nothing; the string-spreads-characters corner of JS is not
exercised by this code base). -/
def asFields : Value → VFields
  | .obj fs => fs
  | _ => .nil

def asList : Value → VList
  | .arr l => l
  | _ => .nil

def isArr : Value → Bool
  | .arr _ => true
  | _ => false

/-- JS truthiness. -/
def truthy : Value → Bool
  | .undef => false
  | .vnull => false
  | .vbool b => b
  | .vnum n => !(n == 0)
  | .vstr s => !(s == "")
  | .oid _ => true
  | .arr _ => true
  | .obj _ => true

def isUndef : Value → Bool
  | .undef => true
  | _ => false

def vlMap (f : Value → Value) : VList → VList
  | .nil => .nil
  | .cons v t => .cons (f v) (vlMap f t)

/-- Convert a Lean list of pairs to a field list (notation convenience). -/
def fieldsOf : List (String × Value) → VFields
  | [] => .nil
  | (k, v) :: t => .fcons k v (fieldsOf t)

def vobj (l : List (String × Value)) : Value := .obj (fieldsOf l)

def varr : List Value → Value
  | [] => .arr .nil
  | v :: t => match varr t with
    | .arr l => .arr (.cons v l)
    | _ => .arr (.cons v .nil)

end Value

namespace Value

/-- lodash `_.get(path, v)` with the path already split into segments.
An empty path yields `undefined` (as `_.get` does). -/
def getPath : List String → Value → Value
  | [], _ => .undef
  | [k], v => lookupV k v
  | k :: k2 :: rest, v => getPath (k2 :: rest) (lookupV k v)

/-- lodash/fp `_.set(path, c, v)` (immutable, fp argument order: path,
new value, target): write `c` at the path, materialising intermediate
objects where the existing value is not an object.  A non-object target
and an empty path are returned unchanged (as lodash does). -/
def setPath : List String → Value → Value → Value
  | [], _, orig => orig
  | [k], c, orig =>
      match orig with
      | .obj fs => .obj (insertJS fs k c)
      | o => o
  | k :: k2 :: rest, c, orig =>
      match orig with
      | .obj fs =>
          let child := lookupF k fs
          let child2 := match child with
            | .obj cf => Value.obj cf
            | _ => Value.obj .nil
          .obj (insertJS fs k (setPath (k2 :: rest) c child2))
      | o => o

/-- lodash `_.has(path, v)`: own-key presence along the whole path;
an empty path gives `false` (as `_.has` does). -/
def hasPath : List String → Value → Bool
  | [], _ => false
  | [k], v => hasOwnV k v
  | k :: k2 :: rest, v =>
      if hasOwnV k v then hasPath (k2 :: rest) (lookupV k v) else false

end Value

open Value

/-- Identifier placeholder generated when the identifier constructor is
called with no value (abstraction of a freshly generated ObjectId). -/
def genId : String := "aaaaaaaaaaaaaaaaaaaaaaaa"

/-- Modelled from the library behavior of the external identifier
constructor (`monk.id`, see the spec §6 "Identifier representation"):
a hex string is wrapped into the native identifier type, a native
identifier is returned unchanged, a missing value produces a freshly
generated identifier (abstracted by the fixed `genId`), and any other
value is passed through.  Strings that are not valid 24-hex identifiers
make the real constructor throw; no claim exercises that case and the
theorems below restrict identifier strings accordingly. -/
def monkId : Value → Value
  | .undef => .oid genId
  | .vnull => .oid genId
  | .vstr s => .oid s
  | .oid s => .oid s
  | v => v

/-- JS `.toString()` as used by `fromDoc`: a native identifier renders as
its hex string, a string is itself.  Other renderings (numbers,
booleans, arrays, objects) are not exercised by any claim and are
abstracted. -/
def jsToString : Value → Value
  | .oid s => .vstr s
  | .vstr s => .vstr s
  | .vnum n => .vstr (toString n)
  | .vbool true => .vstr "true"
  | .vbool false => .vstr "false"
  | _ => .vstr ""

def isHexChar (c : Char) : Bool :=
  c.isDigit || (('a' ≤ c) && (c ≤ 'f')) || (('A' ≤ c) && (c ≤ 'F'))

/-- A valid 24-hex-character identifier string. -/
def isIdStr (s : String) : Bool :=
  (s.length == 24) && s.toList.all isHexChar

/-- A valid identifier value: a 24-hex string. -/
def isIdV : Value → Bool
  | .vstr s => isIdStr s
  | _ => false

def isIdList : VList → Bool
  | .nil => true
  | .cons v t => isIdV v && isIdList t

/-- A valid value for a declared identifier path: a 24-hex string or a
sequence of such strings. -/
def isIdVal : Value → Bool
  | .arr l => isIdList l
  | v => isIdV v

namespace EntityMongoDB

/-- The identifier cast of `toDoc`:
`Array.isArray(value) ? value.map(monk.id) : monk.id(value)`. -/
def castOid : Value → Value
  | .arr xs => .arr (vlMap monkId xs)
  | v => monkId v

/-- The identifier cast of `fromDoc`:
`Array.isArray(value) ? value.map(v => v.toString()) : value.toString()`. -/
def castStr : Value → Value
  | .arr xs => .arr (vlMap jsToString xs)
  | v => jsToString v

/-- One step of the `paths.reduce` in `toDoc`: read the path, skip when
falsy, otherwise write back the identifier-cast value. -/
def toDocStep (acc : Value) (path : List String) : Value :=
  let value := getPath path acc
  if truthy value then setPath path (castOid value) acc else acc

/-- One step of the `paths.reduce` in `fromDoc`. -/
def fromDocStep (acc : Value) (path : List String) : Value :=
  let value := getPath path acc
  if truthy value then setPath path (castStr value) acc else acc

/-- The reduce seed of `toDoc`:
`{_id: entity.id ? monk.id(entity.id) : undefined, ...entity, id: undefined}`. -/
def toDocInit (entity : Value) : VFields :=
  insertJS
    (spreadFields
      (.fcons "_id"
        (if truthy (lookupV "id" entity) then monkId (lookupV "id" entity) else .undef)
        .nil)
      (asFields entity))
    "id" Value.undef

/-- The reduce seed of `fromDoc`:
`{id: doc._id ? doc._id.toString() : undefined, ...doc, _id: undefined}`. -/
def fromDocInit (doc : Value) : VFields :=
  insertJS
    (spreadFields
      (.fcons "id"
        (if truthy (lookupV "_id" doc) then jsToString (lookupV "_id" doc) else .undef)
        .nil)
      (asFields doc))
    "_id" Value.undef

/-- Final `_.omitBy(_.isUndefined, ·)` over the built object. -/
def omitUV : Value → Value
  | .obj fs => .obj (omitU fs)
  | _ => .obj .nil

/-- `EntityMongoDB.toDoc(entity, paths)`: convert an entity to a store
document, casting the declared identifier paths to native identifiers,
moving `id` to the native primary key `_id`, and dropping
undefined-valued top-level fields. -/
def toDoc (entity : Value) (paths : List (List String)) : Value :=
  omitUV (paths.foldl toDocStep (Value.obj (toDocInit entity)))

/-- `EntityMongoDB.fromDoc(doc, paths)`: inverse direction. -/
def fromDoc (doc : Value) (paths : List (List String)) : Value :=
  omitUV (paths.foldl fromDocStep (Value.obj (fromDocInit doc)))

end EntityMongoDB

namespace Value

/-- Remove every entry with the given key. -/
def eraseF (k : String) : VFields → VFields
  | .nil => .nil
  | .fcons k2 v t => if k2 = k then eraseF k t else .fcons k2 v (eraseF k t)

/-- Keep only the first entry of each key (JS lookup semantics; an actual
JS object never repeats a key). -/
def dedupF : VFields → VFields
  | .nil => .nil
  | .fcons k v t => .fcons k v (eraseF k (dedupF t))

/-- Insert into a key-sorted field list. -/
def insertSorted (k : String) (v : Value) : VFields → VFields
  | .nil => .fcons k v .nil
  | .fcons k2 w t =>
      if k < k2 then .fcons k v (.fcons k2 w t)
      else .fcons k2 w (insertSorted k v t)

/-- Insertion sort by key. -/
def sortF : VFields → VFields
  | .nil => .nil
  | .fcons k v t => insertSorted k v (sortF t)

end Value

mutual

/-- Canonical form of a JS value: object fields are deduplicated
(first occurrence wins, as JS property lookup does), fields holding
`undefined` are dropped (JS cannot distinguish them from absent fields
by reads), and keys are sorted.  Two values are semantically equivalent
exactly when their canonical forms are equal. -/
def Value.norm : Value → Value
  | .obj fs => .obj (sortF (omitU (dedupF (Value.normF fs))))
  | .arr l => .arr (Value.normL l)
  | v => v

def Value.normL : VList → VList
  | .nil => .nil
  | .cons v t => .cons (Value.norm v) (Value.normL t)

def Value.normF : VFields → VFields
  | .nil => .nil
  | .fcons k v t => .fcons k (Value.norm v) (Value.normF t)

end

/-- Semantic equivalence of JS values: equal reads everywhere
(undefined-valued fields count as absent, key order is irrelevant). -/
def jsEquiv (a b : Value) : Prop := Value.norm a = Value.norm b

/-- Errors raised locally by this layer. -/
inductive JsError where
  | sertError (msg : String)
  | validationError (msg : String)

/-- One store interaction, as recorded in an operation's trace. -/
inductive StoreCall where
  | findC (query options : Value)
  | findOneC (query options : Value)
  | insertC (doc : Value)
  | updateC (query updates : Value)
  | removeC (query : Value)

/-- The store handle: response functions for each store capability.
Operations record the calls they make in a trace alongside using these
responses. -/
structure Store where
  onFind : Value → Value → Value
  onFindOne : Value → Value → Value
  onInsert : Value → Value
  onUpdate : Value → Value → Value
  onRemove : Value → Value

/-- The entity-type descriptor ("Entity function set"): the pluggable
validation/mapping capability bundle each operation receives.  The field
`validPartial` models `Entity.assertValidPartial`; the assertion
functions are modelled as predicates, the raised message being built at
the call site exactly as the source builds it. -/
structure EntityT where
  clean : Value → Value
  assertValid : Value → Bool
  validPartial : Value → Bool
  toDoc : Value → Value
  fromDoc : Value → Value
  singularName : Option String

/-- Modelled from the spec: the external `Sert.string` assertion (the
`sert` package is not part of this repository).  Per the spec's error
taxonomy, the missing-identifier error is raised when an operation
requiring an identifier "receives none or an empty one". -/
def sertString (v : Value) (msg : String) : Option JsError :=
  match v with
  | .vstr s => if s = "" then some (.sertError msg) else none
  | _ => some (.sertError msg)

namespace EntityMongoDB

def entName (E : EntityT) : String := E.singularName.getD "Entity"

/-- `EntityMongoDB.find`: run the query, substitute `[]` for a falsy
response, map every document through `fromDoc`. -/
def find (st : Store) (E : EntityT) (query opts : Value) :
    Except JsError Value × List StoreCall :=
  let docs := st.onFind query opts
  let docs2 := if truthy docs then docs else .arr .nil
  (Except.ok (.arr (vlMap E.fromDoc (asList docs2))), [.findC query opts])

/-- `EntityMongoDB.findOne`: map the document if one matched, otherwise
return `undefined`. -/
def findOne (st : Store) (E : EntityT) (query opts : Value) :
    Except JsError Value × List StoreCall :=
  let doc := st.onFindOne query opts
  (Except.ok (if truthy doc then E.fromDoc doc else .undef), [.findOneC query opts])

/-- `EntityMongoDB.findById`: primary-key equality query; `undefined` on
no match. -/
def findById (st : Store) (E : EntityT) (id opts : Value) :
    Except JsError Value × List StoreCall :=
  let q := Value.obj (.fcons "_id" (monkId id) .nil)
  let doc := st.onFindOne q opts
  (Except.ok (if truthy doc then E.fromDoc doc else .undef), [.findOneC q opts])

/-- The fixed fake post-insert identifier used by `createOne` for the
completeness validation. -/
def fakeIdStr : String := "1234567890abcdef12345678"

/-- `EntityMongoDB.createOne`: clean, validate the cleaned input extended
with the fake identifier, and only then insert the mapped document. -/
def createOne (st : Store) (E : EntityT) (props : Value) :
    Except JsError Value × List StoreCall :=
  let cleanProps := E.clean props
  let validated := Value.obj (insertJS (asFields cleanProps) "id" (.vstr fakeIdStr))
  if E.assertValid validated then
    let docProps := E.toDoc cleanProps
    let doc := st.onInsert docProps
    (Except.ok (if truthy doc then E.fromDoc doc else .undef), [.insertC docProps])
  else
    (Except.error (.validationError (entName E ++ " createOne properties is invalid.")), [])

/-- `EntityMongoDB.updateOne`: clean, require a string id, validate as a
partial record, send `{$set: omitBy(isUndefined, {...toDoc(clean), id: undefined})}`
against the primary-key query, then re-read through `findOne`. -/
def updateOne (st : Store) (E : EntityT) (props : Value) :
    Except JsError Value × List StoreCall :=
  let cleanProps := E.clean props
  match sertString (lookupV "id" cleanProps) "updateOne require id property." with
  | some e => (Except.error e, [])
  | none =>
    if E.validPartial cleanProps then
      let query := Value.obj (.fcons "_id" (monkId (lookupV "id" cleanProps)) .nil)
      let updates := Value.obj (.fcons "$set"
        (Value.obj (omitU (insertJS (asFields (E.toDoc cleanProps)) "id" .undef))) .nil)
      let after := findOne st E query (Value.obj .nil)
      (after.1, .updateC query updates :: after.2)
    else
      (Except.error (.validationError (entName E ++ " updateOne properties is invalid.")), [])

/-- `EntityMongoDB.upsertOne`: update when the existing record has a
defined id (short-circuiting when there is nothing to set), insert
otherwise. -/
def upsertOne (st : Store) (E : EntityT) (existing updateProps insertOnlyProps : Value) :
    Except JsError Value × List StoreCall :=
  if isUndef (lookupV "id" existing) = false then
    if fieldsLen (asFields updateProps) == 0 then
      (Except.ok existing, [])
    else
      updateOne st E (.obj (insertJS (asFields updateProps) "id" (lookupV "id" existing)))
  else
    createOne st E (.obj (spreadFields (asFields insertOnlyProps) (asFields updateProps)))

/-- `EntityMongoDB.deleteOne`: requires a string id, then removes by
primary key, returning the raw store acknowledgment. -/
def deleteOne (st : Store) (props : Value) :
    Except JsError Value × List StoreCall :=
  match sertString (lookupV "id" props) "deleteOne require id property." with
  | some e => (Except.error e, [])
  | none =>
    let q := Value.obj (.fcons "_id" (monkId (lookupV "id" props)) .nil)
    (Except.ok (st.onRemove q), [.removeC q])

/-- `EntityMongoDB.deleteById`: removes by primary key with no local
identifier check. -/
def deleteById (st : Store) (id : Value) :
    Except JsError Value × List StoreCall :=
  let q := Value.obj (.fcons "_id" (monkId id) .nil)
  (Except.ok (st.onRemove q), [.removeC q])

end EntityMongoDB

/-- The referenced-entity capability used by the reference embedder: the
facade-bound lookups of the referenced entity type, as resolution
oracles. -/
structure RefEntity where
  findByIds : Value → Value
  findById : Value → Value

/-- One lookup issued by the reference embedder. -/
inductive RefCall where
  | byIds (ref : Value)
  | byId (ref : Value)

/-- Split a lodash-style dotted path string into segments
(bracket syntax is not used by this code base). -/
def parsePathAux (c : Char) : List (List Char) → List (List Char)
  | [] => if c = '.' then [[], []] else [[c]]
  | h :: t => if c = '.' then [] :: h :: t else (c :: h) :: t

def parsePath (s : String) : List String :=
  match s.toList.foldr parsePathAux [] with
  | [] => [""]
  | l => l.map (fun cs => String.mk cs)

namespace EntityMongoDB

/-- The embed key: `embedName || referencePath`. -/
def embedKey (embedName : Option String) (referencePath : String) : String :=
  match embedName with
  | some s => if s = "" then referencePath else s
  | none => referencePath

/-- The per-record body of the `map` inside `embedAsReference`: read the
reference at `refPath`; when falsy, the record is returned unchanged and
no lookup is issued; otherwise resolve it (bulk lookup for a sequence,
single lookup for a scalar) and attach the resolution on a copy of the
record under `_embedded[key]`, spread over the pre-existing `_embedded`
content. -/
def embedRecord (E : RefEntity) (refPath : List String) (key : String) (r : Value) :
    Value × List RefCall :=
  let reference := getPath refPath r
  if truthy reference then
    let res : Value × RefCall :=
      match reference with
      | .arr xs => (E.findByIds (.arr xs), RefCall.byIds (.arr xs))
      | v => (E.findById v, RefCall.byId v)
    let embOld := lookupV "_embedded" r
    let base := if truthy embOld then asFields embOld else .nil
    (Value.obj (insertJS (asFields r) "_embedded"
        (Value.obj (insertJS base key res.1))), [res.2])
  else (r, [])

/-- `embedRecord` mapped over the elements of a castArray-ed sequence,
traces concatenated in issue order. -/
def embedList (E : RefEntity) (refPath : List String) (key : String) :
    VList → VList × List RefCall
  | .nil => (.nil, [])
  | .cons v t =>
      let h := embedRecord E refPath key v
      let r := embedList E refPath key t
      (.cons h.1 r.1, h.2 ++ r.2)

/-- Truthiness of the `objectPath` argument (default `null` in the source). -/
def objectPathGiven : Option String → Bool
  | some s => !(s == "")
  | none => false

def objectPathSegs : Option String → List String
  | some s => parsePath s
  | none => []

/-- `EntityMongoDB.embedAsReference`: when `objectPath` is given but the
target has no value at it, return the target unchanged.  Otherwise embed
on the value at `objectPath` (falling back to the target itself when that
value is falsy or `objectPath` is not given), processing a sequence
element-wise, and write the result back at `objectPath` when given. -/
def embedAsReference (E : RefEntity) (target : Value) (referencePath : String)
    (embedName : Option String) (objectPath : Option String) :
    Value × List RefCall :=
  if objectPathGiven objectPath && !(hasPath (objectPathSegs objectPath) target) then
    (target, [])
  else
    let deepRaw := match objectPath with
      | some s => getPath (parsePath s) target
      | none => .undef
    let deepTarget := if truthy deepRaw then deepRaw else target
    let key := embedKey embedName referencePath
    let rp := parsePath referencePath
    let processed : Value × List RefCall :=
      match deepTarget with
      | .arr xs =>
          let r := embedList E rp key xs
          (.arr r.1, r.2)
      | v =>
          let r := embedRecord E rp key v
          (r.1, r.2)
    let ret := if objectPathGiven objectPath then
        setPath (objectPathSegs objectPath) processed.1 target
      else processed.1
    (ret, processed.2)

end EntityMongoDB

namespace Value

def keysF : VFields → List String
  | .nil => []
  | .fcons k _ t => k :: keysF t

/-- Key uniqueness of a field list: every actual JS object satisfies this
(an object literal or spread result cannot repeat a key). -/
def NoDupF (fs : VFields) : Prop := (keysF fs).Nodup

end Value

/-- A store whose reads all miss, whose insert echoes the document and
whose remove returns a fixed acknowledgment (used for the concrete
instantiations below). -/
def st0 : Store :=
  ⟨fun _ _ => .vnull, fun _ _ => .vnull, fun d => d,
   fun _ _ => .vnull, fun _ => vobj [("n", .vnum 1)]⟩

/-- A permissive entity descriptor: `clean` is the identity, both
validators accept, and the mapping is the codec with no declared
identifier paths. -/
def E0 : EntityT :=
  ⟨fun v => v, fun _ => true, fun _ => true,
   fun v => EntityMongoDB.toDoc v [], fun v => EntityMongoDB.fromDoc v [], none⟩

/-- An entity descriptor whose full-record validator always rejects. -/
def Ef : EntityT :=
  ⟨fun v => v, fun _ => false, fun _ => true,
   fun v => EntityMongoDB.toDoc v [], fun v => EntityMongoDB.fromDoc v [], none⟩

/-- A referenced-entity oracle: a single lookup resolves to a one-field
record wrapping the queried reference, a bulk lookup to a singleton list
wrapping the queried reference list. -/
def Eref0 : RefEntity :=
  ⟨fun v => Value.arr (.cons (vobj [("ids", v)]) .nil), fun v => vobj [("id", v)]⟩

/-- A valid 24-hex identifier string used by the concrete instantiations. -/
def idA : String := "0123456789abcdef01234567"

/-- A record whose foreign key lives inside the reserved `_embedded`
side-channel field (used to probe the embedder's overwrite corner). -/
def r9 : Value := vobj [("_embedded", vobj [("x", .vstr idA)])]

/-- Divergence of two paths: they disagree at some common index (so
neither is a prefix of the other). -/
def divergesB : List String → List String → Bool
  | x :: xs, y :: ys => if x = y then divergesB xs ys else true
  | _, _ => false

/-- List append on field lists. -/
def Value.appendF : VFields → VFields → VFields
  | .nil, b => b
  | .fcons k v t, b => .fcons k v (Value.appendF t b)

/-- The common shape of the two codec reduce steps, abstracted over the
identifier cast. -/
def convStep (cast : Value → Value) (acc : Value) (path : List String) : Value :=
  let value := getPath path acc
  if truthy value then setPath path (cast value) acc else acc

/-- Paths not special-cased by the codec seeds: nonempty and starting
neither at the portable `id` field nor at the native `_id` field. -/
def normalPath : List String → Bool
  | [] => false
  | k :: _ => !(k == "id") && !(k == "_id")

/-- The intermediate materialisation of `setPath`: an object passes
through, anything else is replaced by an empty object. -/
def Value.asObjOrNil : Value → Value
  | .obj cf => .obj cf
  | _ => .obj .nil

/-- The round-trip hypothesis on one declared identifier path: its value
is absent or a valid identifier value (a 24-hex string or a sequence of
such strings). -/
def goodP (v : Value) (q : List String) : Prop :=
  Value.getPath q v = .undef ∨ isIdVal (Value.getPath q v) = true

/-- Structural induction principle for field lists (the `induction`
tactic cannot directly handle the mutual inductive). -/
def VFields.inductionOn {motive : VFields → Prop} (fs : VFields)
    (nil : motive .nil)
    (fcons : ∀ (k : String) (v : Value) (t : VFields), motive t → motive (.fcons k v t)) :
    motive fs :=
  match fs with
  | .nil => nil
  | .fcons k v t => fcons k v t (VFields.inductionOn t nil fcons)

/-- Structural induction principle for value lists. -/
def VList.inductionOn {motive : VList → Prop} (l : VList)
    (nil : motive .nil)
    (cons : ∀ (v : Value) (t : VList), motive t → motive (.cons v t)) :
    motive l :=
  match l with
  | .nil => nil
  | .cons v t => cons v t (VList.inductionOn t nil cons)

section

variable {mv : Value → Prop} {ml : VList → Prop} {mf : VFields → Prop}
  (hundef : mv .undef) (hnull : mv .vnull)
  (hbool : ∀ b, mv (.vbool b)) (hnum : ∀ n, mv (.vnum n))
  (hstr : ∀ s, mv (.vstr s)) (hoid : ∀ s, mv (.oid s))
  (harr : ∀ l, ml l → mv (.arr l)) (hobj : ∀ fs, mf fs → mv (.obj fs))
  (hlnil : ml .nil) (hlcons : ∀ v t, mv v → ml t → ml (.cons v t))
  (hfnil : mf .nil) (hfcons : ∀ k v t, mv v → mf t → mf (.fcons k v t))

mutual

/-- Full mutual structural induction over values. -/
def Value.inductV : ∀ v, mv v
  | .undef => hundef
  | .vnull => hnull
  | .vbool b => hbool b
  | .vnum n => hnum n
  | .vstr s => hstr s
  | .oid s => hoid s
  | .arr l => harr l (Value.inductL l)
  | .obj fs => hobj fs (Value.inductF fs)

/-- Full mutual structural induction over value lists. -/
def Value.inductL : ∀ l, ml l
  | .nil => hlnil
  | .cons v t => hlcons v t (Value.inductV v) (Value.inductL t)

/-- Full mutual structural induction over field lists. -/
def Value.inductF : ∀ fs, mf fs
  | .nil => hfnil
  | .fcons k v t => hfcons k v t (Value.inductV v) (Value.inductF t)

end

end

-- ## Theorems

namespace Value

theorem lookupF_insert_self (fs : VFields) (k : String) (v : Value) :
    lookupF k (insertJS fs k v) = v := by
  induction fs using VFields.inductionOn with
  | nil => simp [insertJS, lookupF]
  | fcons k2 w t ih =>
      by_cases h : k2 = k
      · subst h; simp [insertJS, lookupF]
      · simp [insertJS, lookupF, h, ih]

theorem lookupF_insert_other {k2 k : String} (fs : VFields) (v : Value) (h : k2 ≠ k) :
    lookupF k (insertJS fs k2 v) = lookupF k fs := by
  induction fs using VFields.inductionOn with
  | nil => simp [insertJS, lookupF, h]
  | fcons k3 w t ih =>
      by_cases h3 : k3 = k2
      · subst h3; simp [insertJS, lookupF, h]
      · simp [insertJS, lookupF, h3]
        by_cases h4 : k3 = k
        · simp [h4]
        · simp [h4, ih]

theorem hasOwnF_insert_self (fs : VFields) (k : String) (v : Value) :
    hasOwnF k (insertJS fs k v) = true := by
  induction fs using VFields.inductionOn with
  | nil => simp [insertJS, hasOwnF]
  | fcons k2 w t ih =>
      by_cases h : k2 = k
      · subst h; simp [insertJS, hasOwnF]
      · simp [insertJS, hasOwnF, h, ih]

theorem hasOwnF_insert_other {k2 k : String} (fs : VFields) (v : Value) (h : k2 ≠ k) :
    hasOwnF k (insertJS fs k2 v) = hasOwnF k fs := by
  induction fs using VFields.inductionOn with
  | nil => simp [insertJS, hasOwnF, h]
  | fcons k3 w t ih =>
      by_cases h3 : k3 = k2
      · subst h3; simp [insertJS, hasOwnF, h]
      · simp [insertJS, hasOwnF, h3]
        by_cases h4 : k3 = k
        · simp [h4]
        · simp [h4, ih]

theorem hasOwnF_true_iff (fs : VFields) (k : String) :
    hasOwnF k fs = true ↔ k ∈ keysF fs := by
  induction fs using VFields.inductionOn with
  | nil => simp [hasOwnF, keysF]
  | fcons k2 w t ih =>
      by_cases h : k2 = k
      · subst h; simp [hasOwnF, keysF]
      · simp [hasOwnF, keysF, h, ih, Ne.symm h]

theorem lookupF_spread_not {k : String} (add : VFields) (base : VFields)
    (h : hasOwnF k add = false) :
    lookupF k (spreadFields base add) = lookupF k base := by
  induction add using VFields.inductionOn generalizing base with
  | nil => simp [spreadFields]
  | fcons k2 w t ih =>
      have h2 : k2 ≠ k := by
        intro hk; rw [hk] at h; simp [hasOwnF] at h
      have ht : hasOwnF k t = false := by
        simpa [hasOwnF, h2] using h
      simp only [spreadFields]
      rw [ih _ ht, lookupF_insert_other _ _ h2]

theorem lookupF_spread_has {k : String} (add : VFields) (base : VFields)
    (h : hasOwnF k add = true) (hnd : NoDupF add) :
    lookupF k (spreadFields base add) = lookupF k add := by
  induction add using VFields.inductionOn generalizing base with
  | nil => simp [hasOwnF] at h
  | fcons k2 w t ih =>
      have hnd0 : k2 ∉ keysF t ∧ (keysF t).Nodup := by
        simpa [NoDupF, keysF, List.nodup_cons] using hnd
      have hnd2 : NoDupF t := hnd0.2
      by_cases hk : k2 = k
      · subst hk
        have hnotin : k2 ∉ keysF t := hnd0.1
        have ht : hasOwnF k2 t = false := by
          rcases hb : hasOwnF k2 t with _ | _
          · rfl
          · exact absurd ((hasOwnF_true_iff t k2).mp hb) hnotin
        simp only [spreadFields]
        rw [lookupF_spread_not t _ ht, lookupF_insert_self]
        simp [lookupF]
      · have ht : hasOwnF k t = true := by
          simpa [hasOwnF, hk] using h
        simp only [spreadFields]
        rw [ih _ ht hnd2]
        simp [lookupF, hk]

theorem fieldsLen_eq_zero_iff (fs : VFields) : fieldsLen fs = 0 ↔ fs = .nil := by
  cases fs <;> simp [fieldsLen]

theorem isUndef_true_iff (v : Value) : isUndef v = true ↔ v = .undef := by
  cases v <;> simp [isUndef]

theorem isUndef_false_iff (v : Value) : isUndef v = false ↔ v ≠ .undef := by
  cases v <;> simp [isUndef]

theorem keysF_insert (fs : VFields) (k : String) (v : Value) :
    keysF (insertJS fs k v) = if hasOwnF k fs then keysF fs else keysF fs ++ [k] := by
  induction fs using VFields.inductionOn with
  | nil => simp [insertJS, keysF, hasOwnF]
  | fcons k2 w t ih =>
      by_cases h : k2 = k
      · subst h; simp [insertJS, keysF, hasOwnF]
      · simp [insertJS, keysF, hasOwnF, h, ih]
        by_cases h2 : hasOwnF k t = true <;> simp [h2]

theorem NoDupF_insert {fs : VFields} (k : String) (v : Value) (h : NoDupF fs) :
    NoDupF (insertJS fs k v) := by
  unfold NoDupF
  rw [keysF_insert]
  by_cases h2 : hasOwnF k fs = true
  · simpa [h2] using h
  · have h3 : k ∉ keysF fs := fun hm =>
      h2 ((hasOwnF_true_iff fs k).mpr hm)
    simp only [h2, if_false, Bool.false_eq_true]
    simpa [List.nodup_append] using ⟨h, h3⟩

theorem lookupF_omitU {fs : VFields} (k : String) (h : NoDupF fs) :
    lookupF k (omitU fs) = lookupF k fs := by
  induction fs using VFields.inductionOn with
  | nil => simp [omitU]
  | fcons k2 w t ih =>
      have hnd0 : k2 ∉ keysF t ∧ (keysF t).Nodup := by
        simpa [NoDupF, keysF, List.nodup_cons] using h
      have ih2 := ih hnd0.2
      by_cases hk : k2 = k
      · subst hk
        have ht : hasOwnF k2 t = false := by
          rcases hb : hasOwnF k2 t with _ | _
          · rfl
          · exact absurd ((hasOwnF_true_iff t k2).mp hb) hnd0.1
        have htl : lookupF k2 t = .undef := by
          clear ih ih2 hnd0 h
          induction t using VFields.inductionOn with
          | nil => simp [lookupF]
          | fcons k3 u r ihr =>
              by_cases h3 : k3 = k2
              · subst h3; simp [hasOwnF] at ht
              · have : hasOwnF k2 r = false := by simpa [hasOwnF, h3] using ht
                simpa [lookupF, h3] using ihr this
        cases w with
        | undef => simp [omitU, lookupF, ih2, htl]
        | vnull => simp [omitU, lookupF]
        | vbool b => simp [omitU, lookupF]
        | vnum n => simp [omitU, lookupF]
        | vstr s => simp [omitU, lookupF]
        | oid s => simp [omitU, lookupF]
        | arr l => simp [omitU, lookupF]
        | obj o => simp [omitU, lookupF]
      · cases w with
        | undef => simp [omitU, lookupF, hk, ih2]
        | vnull => simp [omitU, lookupF, hk, ih2]
        | vbool b => simp [omitU, lookupF, hk, ih2]
        | vnum n => simp [omitU, lookupF, hk, ih2]
        | vstr s => simp [omitU, lookupF, hk, ih2]
        | oid s => simp [omitU, lookupF, hk, ih2]
        | arr l => simp [omitU, lookupF, hk, ih2]
        | obj o => simp [omitU, lookupF, hk, ih2]

theorem lookupF_omitU_ne_undef {fs : VFields} (k : String)
    (h : hasOwnF k (omitU fs) = true) : lookupF k (omitU fs) ≠ .undef := by
  induction fs using VFields.inductionOn with
  | nil => simp [omitU, hasOwnF] at h
  | fcons k2 w t ih =>
      cases w with
      | undef => exact ih (by simpa [omitU] using h)
      | vnull =>
          by_cases hk : k2 = k
          · subst hk; simp [omitU, lookupF]
          · simp only [omitU, lookupF, hk, if_false]
            exact ih (by simpa [omitU, hasOwnF, hk] using h)
      | vbool b =>
          by_cases hk : k2 = k
          · subst hk; simp [omitU, lookupF]
          · simp only [omitU, lookupF, hk, if_false]
            exact ih (by simpa [omitU, hasOwnF, hk] using h)
      | vnum n =>
          by_cases hk : k2 = k
          · subst hk; simp [omitU, lookupF]
          · simp only [omitU, lookupF, hk, if_false]
            exact ih (by simpa [omitU, hasOwnF, hk] using h)
      | vstr s =>
          by_cases hk : k2 = k
          · subst hk; simp [omitU, lookupF]
          · simp only [omitU, lookupF, hk, if_false]
            exact ih (by simpa [omitU, hasOwnF, hk] using h)
      | oid s =>
          by_cases hk : k2 = k
          · subst hk; simp [omitU, lookupF]
          · simp only [omitU, lookupF, hk, if_false]
            exact ih (by simpa [omitU, hasOwnF, hk] using h)
      | arr l =>
          by_cases hk : k2 = k
          · subst hk; simp [omitU, lookupF]
          · simp only [omitU, lookupF, hk, if_false]
            exact ih (by simpa [omitU, hasOwnF, hk] using h)
      | obj o =>
          by_cases hk : k2 = k
          · subst hk; simp [omitU, lookupF]
          · simp only [omitU, lookupF, hk, if_false]
            exact ih (by simpa [omitU, hasOwnF, hk] using h)

theorem hasOwnF_omitU_of_lookup {fs : VFields} (k : String)
    (h : lookupF k fs = .undef) (hnd : NoDupF fs) :
    hasOwnF k (omitU fs) = false := by
  rcases hb : hasOwnF k (omitU fs) with _ | _
  · rfl
  · exact absurd (by rw [lookupF_omitU k hnd]; exact h) (lookupF_omitU_ne_undef k hb)

end Value

open EntityMongoDB

-- ### Claim C3

/-- Claim C3: for every input props, if `assertValid` rejects the cleaned
input extended with the fixed placeholder identifier
`1234567890abcdef12345678`, then `createOne` raises that validation error
before issuing any store write (empty trace); when validation passes, the
insert is issued with the mapped cleaned input, and the record validated
is the cleaned input with exactly the fake 24-hex id substituted (the
argument of `assertValid` in both branches below). -/
theorem claim_C3_createOne_validation (st : Store) (E : EntityT) (props : Value) :
    (E.assertValid (Value.obj (insertJS (asFields (E.clean props)) "id"
        (.vstr fakeIdStr))) = false →
      createOne st E props =
        (Except.error (.validationError (entName E ++ " createOne properties is invalid.")),
          [])) ∧
    (E.assertValid (Value.obj (insertJS (asFields (E.clean props)) "id"
        (.vstr fakeIdStr))) = true →
      createOne st E props =
        (Except.ok (if truthy (st.onInsert (E.toDoc (E.clean props)))
            then E.fromDoc (st.onInsert (E.toDoc (E.clean props))) else .undef),
          [.insertC (E.toDoc (E.clean props))])) ∧
    isIdStr fakeIdStr = true := by
  refine ⟨fun h => ?_, fun h => ?_, by decide⟩
  · simp [createOne, h]
  · simp [createOne, h]

theorem claim_C3_createOne_validation_witness :
    createOne st0 Ef (vobj [("a", .vnum 1)]) =
      (Except.error (.validationError "Entity createOne properties is invalid."), []) ∧
    createOne st0 E0 (vobj [("a", .vnum 1)]) =
      (Except.ok (vobj [("a", .vnum 1)]), [.insertC (vobj [("a", .vnum 1)])]) := by
  constructor
  · exact (claim_C3_createOne_validation st0 Ef (vobj [("a", .vnum 1)])).1 rfl
  · exact (claim_C3_createOne_validation st0 E0 (vobj [("a", .vnum 1)])).2.1 rfl

-- ### Claim C4

/-- Claim C4: when the existing record has a defined id, `upsertOne` with
zero own update fields returns the existing record unchanged with an
empty trace; with at least one own update field it behaves exactly as
`updateOne` on the update props merged with the existing id (the existing
id overriding any id among the update props, by spread semantics). -/
theorem claim_C4_upsert_existing (st : Store) (E : EntityT)
    (existing updateProps insertOnly : Value)
    (hid : lookupV "id" existing ≠ .undef) :
    (asFields updateProps = .nil →
      upsertOne st E existing updateProps insertOnly = (Except.ok existing, [])) ∧
    (asFields updateProps ≠ .nil →
      upsertOne st E existing updateProps insertOnly =
        updateOne st E (.obj (insertJS (asFields updateProps) "id" (lookupV "id" existing)))) ∧
    lookupF "id" (insertJS (asFields updateProps) "id" (lookupV "id" existing)) =
      lookupV "id" existing := by
  have hu : isUndef (lookupV "id" existing) = false := (isUndef_false_iff _).mpr hid
  refine ⟨fun h => ?_, fun h => ?_, lookupF_insert_self _ _ _⟩
  · simp [upsertOne, hu, h, fieldsLen]
  · have hlen : (fieldsLen (asFields updateProps) == 0) = false := by
      cases hf : asFields updateProps with
      | nil => exact absurd hf h
      | fcons k v t => simp [hf, fieldsLen]
    simp [upsertOne, hu, hlen]

theorem claim_C4_upsert_existing_witness :
    upsertOne st0 E0 (vobj [("id", .vstr idA)]) (vobj []) (vobj [("a", .vnum 1)]) =
      (Except.ok (vobj [("id", .vstr idA)]), []) ∧
    upsertOne st0 E0 (vobj [("id", .vstr idA)]) (vobj [("a", .vnum 1)]) (vobj []) =
      updateOne st0 E0 (vobj [("a", .vnum 1), ("id", .vstr idA)]) := by
  constructor
  · exact (claim_C4_upsert_existing st0 E0 (vobj [("id", .vstr idA)]) (vobj [])
      (vobj [("a", .vnum 1)]) (fun h => Value.noConfusion h)).1 rfl
  · exact (claim_C4_upsert_existing st0 E0 (vobj [("id", .vstr idA)])
      (vobj [("a", .vnum 1)]) (vobj []) (fun h => Value.noConfusion h)).2.1
      (fun h => VFields.noConfusion h)

-- ### Claim C5

/-- Claim C5: when the existing record's id is undefined, `upsertOne`
behaves exactly as `createOne` on the spread merge of the insert-only
props with the update props, and on every key the update props own, the
merged value is the update-prop value (update props take precedence). -/
theorem claim_C5_upsert_insert (st : Store) (E : EntityT)
    (existing updateProps insertOnly : Value)
    (hid : lookupV "id" existing = .undef)
    (hnd : NoDupF (asFields updateProps)) :
    upsertOne st E existing updateProps insertOnly =
      createOne st E (.obj (spreadFields (asFields insertOnly) (asFields updateProps))) ∧
    (∀ k : String, hasOwnF k (asFields updateProps) = true →
      lookupF k (spreadFields (asFields insertOnly) (asFields updateProps)) =
        lookupF k (asFields updateProps)) := by
  have hu : isUndef (lookupV "id" existing) = true := (isUndef_true_iff _).mpr hid
  constructor
  · simp [upsertOne, hu]
  · intro k hk
    exact lookupF_spread_has _ _ hk hnd

theorem claim_C5_upsert_insert_witness :
    upsertOne st0 E0 (vobj []) (vobj []) (vobj [("a", .vnum 1)]) =
      createOne st0 E0 (vobj [("a", .vnum 1)]) ∧
    (upsertOne st0 E0 (vobj []) (vobj []) (vobj [("a", .vnum 1)])).2 =
      [.insertC (vobj [("a", .vnum 1)])] ∧
    lookupF "a" (spreadFields (fieldsOf [("a", .vnum 7)]) (fieldsOf [("a", .vnum 1)])) =
      .vnum 1 := by
  refine ⟨(claim_C5_upsert_insert st0 E0 (vobj []) (vobj []) (vobj [("a", .vnum 1)])
      rfl (by simp [NoDupF, keysF, vobj, fieldsOf, asFields])).1, rfl, ?_⟩
  exact (claim_C5_upsert_insert st0 E0 (vobj []) (fieldsOf [("a", .vnum 1)] |> Value.obj)
      (vobj [("a", .vnum 7)]) rfl (by simp [NoDupF, keysF, fieldsOf, asFields])).2 "a" rfl

-- ### Claim C6 (corrected)

/-- Claim C6 counterexample: `deleteById` with a missing identifier does
not raise a missing-identifier error and does issue a store removal (with
a freshly generated native identifier), contradicting the claim that both
delete operations raise a missing-identifier error locally before any
store call when the identifier is missing. -/
theorem claim_C6_counterexample :
    deleteById st0 .undef =
      (Except.ok (vobj [("n", .vnum 1)]),
        [StoreCall.removeC (vobj [("_id", .oid genId)])]) := rfl

/-- Claim C6 (amended): `deleteOne` requires a non-empty string
identifier: a missing, non-string or empty-string id raises the
missing-identifier error locally with an empty trace; a non-empty string
id issues exactly one removal by primary key and returns the raw store
acknowledgment.  `deleteById` performs no local identifier check: it
always issues the removal by primary key (a missing identifier being
replaced by a freshly generated one by the identifier constructor) and
returns the raw store acknowledgment. -/
theorem claim_C6_delete_amended (st : Store) :
    (∀ props, lookupV "id" props = .undef →
      deleteOne st props =
        (Except.error (.sertError "deleteOne require id property."), [])) ∧
    (∀ props, lookupV "id" props = .vstr "" →
      deleteOne st props =
        (Except.error (.sertError "deleteOne require id property."), [])) ∧
    (∀ props s, lookupV "id" props = .vstr s → s ≠ "" →
      deleteOne st props =
        (Except.ok (st.onRemove (Value.obj (.fcons "_id" (.oid s) .nil))),
          [.removeC (Value.obj (.fcons "_id" (.oid s) .nil))])) ∧
    (∀ id, deleteById st id =
      (Except.ok (st.onRemove (Value.obj (.fcons "_id" (monkId id) .nil))),
        [.removeC (Value.obj (.fcons "_id" (monkId id) .nil))])) := by
  refine ⟨fun props h => ?_, fun props h => ?_, fun props s h hs => ?_, fun id => rfl⟩
  · simp [deleteOne, h, sertString]
  · simp [deleteOne, h, sertString]
  · simp [deleteOne, h, sertString, hs, monkId]

theorem claim_C6_delete_amended_witness :
    deleteOne st0 (vobj []) =
      (Except.error (.sertError "deleteOne require id property."), []) ∧
    deleteOne st0 (vobj [("id", .vstr "")]) =
      (Except.error (.sertError "deleteOne require id property."), []) ∧
    deleteOne st0 (vobj [("id", .vstr idA)]) =
      (Except.ok (vobj [("n", .vnum 1)]), [.removeC (Value.obj (.fcons "_id" (.oid idA) .nil))]) ∧
    deleteById st0 (.vstr idA) =
      (Except.ok (vobj [("n", .vnum 1)]), [.removeC (Value.obj (.fcons "_id" (.oid idA) .nil))]) := by
  refine ⟨(claim_C6_delete_amended st0).1 (vobj []) rfl,
    (claim_C6_delete_amended st0).2.1 (vobj [("id", .vstr "")]) rfl,
    ?_, (claim_C6_delete_amended st0).2.2.2 (.vstr idA)⟩
  exact (claim_C6_delete_amended st0).2.2.1 (vobj [("id", .vstr idA)]) idA rfl (by decide)

-- ### Claim C7

/-- Claim C7: not-found is never an error: when the store response to a
single-document read is falsy, `findOne` and `findById` return `undefined`
(an absent value) successfully, and when the store response to `find` is
falsy or an empty sequence, `find` returns the empty sequence. -/
theorem claim_C7_notfound_absent (st : Store) (E : EntityT) :
    (∀ q o, truthy (st.onFindOne q o) = false →
      findOne st E q o = (Except.ok .undef, [.findOneC q o])) ∧
    (∀ id o, truthy (st.onFindOne (Value.obj (.fcons "_id" (monkId id) .nil)) o) = false →
      findById st E id o =
        (Except.ok .undef, [.findOneC (Value.obj (.fcons "_id" (monkId id) .nil)) o])) ∧
    (∀ q o, (truthy (st.onFind q o) = false ∨ st.onFind q o = .arr .nil) →
      find st E q o = (Except.ok (.arr .nil), [.findC q o])) := by
  refine ⟨fun q o h => ?_, fun id o h => ?_, fun q o h => ?_⟩
  · simp [findOne, h]
  · simp [findById, h]
  · rcases h with h | h
    · simp [find, h, asList, vlMap]
    · simp [find, h, asList, vlMap, truthy]

theorem claim_C7_notfound_absent_witness :
    findOne st0 E0 (vobj []) (vobj []) = (Except.ok .undef, [.findOneC (vobj []) (vobj [])]) ∧
    findById st0 E0 (.vstr idA) (vobj []) =
      (Except.ok .undef, [.findOneC (Value.obj (.fcons "_id" (monkId (.vstr idA)) .nil)) (vobj [])]) ∧
    find st0 E0 (vobj []) (vobj []) = (Except.ok (.arr .nil), [.findC (vobj []) (vobj [])]) := by
  refine ⟨(claim_C7_notfound_absent st0 E0).1 (vobj []) (vobj []) rfl,
    (claim_C7_notfound_absent st0 E0).2.1 (.vstr idA) (vobj []) rfl,
    (claim_C7_notfound_absent st0 E0).2.2 (vobj []) (vobj []) (Or.inl rfl)⟩

-- ### Claim C8

/-- Claim C8: for every target and every given (non-empty) `objectPath`
such that the target has no value at that path, `embedAsReference`
returns the target unchanged with no lookup issued. -/
theorem claim_C8_embed_missing_path (E : RefEntity) (target : Value)
    (rp : String) (en : Option String) (s : String)
    (hs : s ≠ "") (h : hasPath (parsePath s) target = false) :
    embedAsReference E target rp en (some s) = (target, []) := by
  simp [embedAsReference, objectPathGiven, objectPathSegs, h, hs]

theorem claim_C8_embed_missing_path_witness :
    embedAsReference Eref0 (vobj [("a", .vnum 1)]) "fooId" (some "foo") (some "b.c") =
      (vobj [("a", .vnum 1)], []) := by
  exact claim_C8_embed_missing_path Eref0 (vobj [("a", .vnum 1)]) "fooId" (some "foo")
    "b.c" (by decide) (by decide)

-- ### Claim C10

/-- Claim C10: a falsy value (undefined, null, false, 0 or the empty
string) at a declared identifier path is treated exactly like an absent
one by both codec directions: the conversion step returns its accumulator
unchanged (the value is left in place unconverted, no error is raised);
likewise the reference embedder treats a falsy reference value as no
reference: the record is returned unchanged and no lookup is issued. -/
theorem claim_C10_falsy_skip :
    (∀ (acc : Value) (path : List String), truthy (getPath path acc) = false →
      toDocStep acc path = acc) ∧
    (∀ (acc : Value) (path : List String), truthy (getPath path acc) = false →
      fromDocStep acc path = acc) ∧
    (∀ (E : RefEntity) (rp : List String) (key : String) (r : Value),
      truthy (getPath rp r) = false →
      embedRecord E rp key r = (r, [])) := by
  refine ⟨fun acc path h => ?_, fun acc path h => ?_, fun E rp key r h => ?_⟩
  · simp [toDocStep, h]
  · simp [fromDocStep, h]
  · simp [embedRecord, h]

theorem claim_C10_falsy_skip_witness :
    toDocStep (vobj [("a", .vstr "")]) ["a"] = vobj [("a", .vstr "")] ∧
    fromDocStep (vobj [("a", .vstr "")]) ["a"] = vobj [("a", .vstr "")] ∧
    embedRecord Eref0 ["a"] "a" (vobj [("a", .vstr "")]) = (vobj [("a", .vstr "")], []) ∧
    fromDoc (toDoc (vobj [("a", .vstr "")]) [["a"]]) [["a"]] = vobj [("a", .vstr "")] := by
  refine ⟨claim_C10_falsy_skip.1 (vobj [("a", .vstr "")]) ["a"] rfl,
    claim_C10_falsy_skip.2.1 (vobj [("a", .vstr "")]) ["a"] rfl,
    claim_C10_falsy_skip.2.2 Eref0 ["a"] "a" (vobj [("a", .vstr "")]) rfl, rfl⟩

-- ### Claim C2 (corrected)

/-- Claim C2 counterexample: with the identity `clean` and the codec as
mapping, `updateOne` on `{id: X, name: "A"}` sends an update whose `$set`
body is `{_id: oid(X), name: "A"}`: the native primary-key field `_id` IS
part of the update body, contradicting the claim that the body contains
no identifier field (neither `id` nor `_id`). -/
theorem claim_C2_counterexample :
    (updateOne st0 E0 (vobj [("id", .vstr idA), ("name", .vstr "A")])).2 =
      [StoreCall.updateC (vobj [("_id", .oid idA)])
          (vobj [("$set", vobj [("_id", .oid idA), ("name", .vstr "A")])]),
        StoreCall.findOneC (vobj [("_id", .oid idA)]) (vobj [])] ∧
    hasOwnV "_id" (lookupV "$set"
      (vobj [("$set", vobj [("_id", .oid idA), ("name", .vstr "A")])])) = true :=
  ⟨rfl, rfl⟩

/-- Claim C2 (amended): for every props whose cleaned form carries a
non-empty string id and passes partial validation, `updateOne` sends
exactly one update followed by one re-read, the update body being the
mapped document with the portable `id` field removed and undefined-valued
fields dropped; the portable `id` field is never in the body, every other
key reads exactly as in the mapped document, and the body has no
undefined-valued field.  (The native primary-key field `_id` is NOT
removed: it is part of the body whenever the mapped document carries it.)
The key-uniqueness hypothesis states that the mapped document is a real
JS object. -/
theorem claim_C2_update_body_amended (st : Store) (E : EntityT) (props : Value) (s : String)
    (hid : lookupV "id" (E.clean props) = .vstr s) (hs : s ≠ "")
    (hv : E.validPartial (E.clean props) = true)
    (hnd : NoDupF (asFields (E.toDoc (E.clean props)))) :
    updateOne st E props =
      ((findOne st E (Value.obj (.fcons "_id" (.oid s) .nil)) (Value.obj .nil)).1,
        [.updateC (Value.obj (.fcons "_id" (.oid s) .nil))
            (Value.obj (.fcons "$set"
              (Value.obj (omitU (insertJS (asFields (E.toDoc (E.clean props))) "id" .undef)))
              .nil)),
          .findOneC (Value.obj (.fcons "_id" (.oid s) .nil)) (Value.obj .nil)]) ∧
    hasOwnF "id" (omitU (insertJS (asFields (E.toDoc (E.clean props))) "id" .undef)) = false ∧
    (∀ k, k ≠ "id" →
      lookupF k (omitU (insertJS (asFields (E.toDoc (E.clean props))) "id" .undef)) =
        lookupF k (asFields (E.toDoc (E.clean props)))) ∧
    (∀ k, hasOwnF k (omitU (insertJS (asFields (E.toDoc (E.clean props))) "id" .undef)) = true →
      lookupF k (omitU (insertJS (asFields (E.toDoc (E.clean props))) "id" .undef)) ≠ .undef) := by
  have hndI : NoDupF (insertJS (asFields (E.toDoc (E.clean props))) "id" .undef) :=
    NoDupF_insert "id" .undef hnd
  refine ⟨?_, ?_, fun k hk => ?_, fun k hk => lookupF_omitU_ne_undef k hk⟩
  · simp [updateOne, hid, hs, hv, sertString, monkId, findOne]
  · exact hasOwnF_omitU_of_lookup "id" (lookupF_insert_self _ _ _) hndI
  · rw [lookupF_omitU k hndI, lookupF_insert_other _ _ (Ne.symm hk)]

theorem claim_C2_update_body_amended_witness :
    updateOne st0 E0 (vobj [("id", .vstr idA), ("name", .vstr "A")]) =
      (Except.ok .undef,
        [.updateC (Value.obj (.fcons "_id" (.oid idA) .nil))
            (Value.obj (.fcons "$set"
              (vobj [("_id", .oid idA), ("name", .vstr "A")]) .nil)),
          .findOneC (Value.obj (.fcons "_id" (.oid idA) .nil)) (Value.obj .nil)]) ∧
    hasOwnF "id" (fieldsOf [("_id", .oid idA), ("name", .vstr "A")]) = false := by
  have h := claim_C2_update_body_amended st0 E0
    (vobj [("id", .vstr idA), ("name", .vstr "A")]) idA rfl (by decide) rfl
    (by simp [NoDupF, keysF, E0, EntityMongoDB.toDoc, vobj, fieldsOf, asFields])
  exact ⟨h.1, by simpa using h.2.1⟩

-- ### Path lemmas

namespace Value

theorem getPath_cons2 (k k2 : String) (rest : List String) (v : Value) :
    getPath (k :: k2 :: rest) v = getPath (k2 :: rest) (lookupV k v) := rfl

theorem getPath_single (k : String) (v : Value) : getPath [k] v = lookupV k v := rfl

/-- Reading any nonempty path off a non-object yields `undefined`. -/
theorem getPath_nonobj (p : List String) (v : Value) (hp : p ≠ [])
    (hv : ∀ fs, v ≠ .obj fs) : getPath p v = .undef := by
  induction p generalizing v with
  | nil => exact absurd rfl hp
  | cons k rest ih =>
      cases rest with
      | nil =>
          cases v with
          | obj fs => exact absurd rfl (hv fs)
          | undef => rfl
          | vnull => rfl
          | vbool b => rfl
          | vnum n => rfl
          | vstr s => rfl
          | oid s => rfl
          | arr l => rfl
      | cons k2 r2 =>
          rw [getPath_cons2]
          have hlk : lookupV k v = .undef := by
            cases v with
            | obj fs => exact absurd rfl (hv fs)
            | undef => rfl
            | vnull => rfl
            | vbool b => rfl
            | vnum n => rfl
            | vstr s => rfl
            | oid s => rfl
            | arr l => rfl
          rw [hlk]
          exact ih _ (by simp) (fun fs h => Value.noConfusion h)

/-- A truthy path read forces the root to be an object. -/
theorem obj_of_truthy_getPath {p : List String} {v : Value}
    (h : truthy (getPath p v) = true) : ∃ fs, v = .obj fs := by
  cases v with
  | obj fs => exact ⟨fs, rfl⟩
  | undef =>
      cases p with
      | nil => simp [getPath, truthy] at h
      | cons k rest =>
          rw [getPath_nonobj _ _ (by simp) (fun fs h2 => Value.noConfusion h2)] at h
          simp [truthy] at h
  | vnull =>
      cases p with
      | nil => simp [getPath, truthy] at h
      | cons k rest =>
          rw [getPath_nonobj _ _ (by simp) (fun fs h2 => Value.noConfusion h2)] at h
          simp [truthy] at h
  | vbool b =>
      cases p with
      | nil => simp [getPath, truthy] at h
      | cons k rest =>
          rw [getPath_nonobj _ _ (by simp) (fun fs h2 => Value.noConfusion h2)] at h
          simp [truthy] at h
  | vnum n =>
      cases p with
      | nil => simp [getPath, truthy] at h
      | cons k rest =>
          rw [getPath_nonobj _ _ (by simp) (fun fs h2 => Value.noConfusion h2)] at h
          simp [truthy] at h
  | vstr s =>
      cases p with
      | nil => simp [getPath, truthy] at h
      | cons k rest =>
          rw [getPath_nonobj _ _ (by simp) (fun fs h2 => Value.noConfusion h2)] at h
          simp [truthy] at h
  | oid s =>
      cases p with
      | nil => simp [getPath, truthy] at h
      | cons k rest =>
          rw [getPath_nonobj _ _ (by simp) (fun fs h2 => Value.noConfusion h2)] at h
          simp [truthy] at h
  | arr l =>
      cases p with
      | nil => simp [getPath, truthy] at h
      | cons k rest =>
          rw [getPath_nonobj _ _ (by simp) (fun fs h2 => Value.noConfusion h2)] at h
          simp [truthy] at h

end Value

namespace Value

/-- Property read off a non-object yields `undefined`. -/
theorem lookupV_nonobj (k : String) (v : Value) (hv : ∀ fs, v ≠ .obj fs) :
    lookupV k v = .undef := by
  cases v with
  | obj fs => exact absurd rfl (hv fs)
  | undef => rfl
  | vnull => rfl
  | vbool b => rfl
  | vnum n => rfl
  | vstr s => rfl
  | oid s => rfl
  | arr l => rfl

/-- Every value is an object or is not one. -/
theorem obj_or_not (v : Value) : (∃ fs, v = .obj fs) ∨ (∀ fs, v ≠ .obj fs) := by
  cases v with
  | obj fs => exact Or.inl ⟨fs, rfl⟩
  | undef => exact Or.inr fun fs h => Value.noConfusion h
  | vnull => exact Or.inr fun fs h => Value.noConfusion h
  | vbool b => exact Or.inr fun fs h => Value.noConfusion h
  | vnum n => exact Or.inr fun fs h => Value.noConfusion h
  | vstr s => exact Or.inr fun fs h => Value.noConfusion h
  | oid s => exact Or.inr fun fs h => Value.noConfusion h
  | arr l => exact Or.inr fun fs h => Value.noConfusion h

theorem lookupV_obj (k : String) (fs : VFields) :
    lookupV k (Value.obj fs) = lookupF k fs := rfl

theorem asFields_nonobj (v : Value) (hv : ∀ fs, v ≠ .obj fs) : asFields v = .nil := by
  cases v with
  | obj fs => exact absurd rfl (hv fs)
  | undef => rfl
  | vnull => rfl
  | vbool b => rfl
  | vnum n => rfl
  | vstr s => rfl
  | oid s => rfl
  | arr l => rfl

end Value

theorem parsePath_ne_nil (s : String) : parsePath s ≠ [] := by
  unfold parsePath
  cases h : s.toList.foldr parsePathAux [] with
  | nil => simp
  | cons a t => simp

-- ### Claim C9 (corrected)

/-- Claim C9 counterexample: when the reference path itself points inside
the reserved `_embedded` field and the embed name coincides with its
entry, the attachment overwrites the original foreign-key field: the
embedder on `{_embedded: {x: idA}}` with reference path `_embedded.x` and
embed name `x` replaces the foreign key `idA` at that path by the
resolved entity, contradicting the claim that the returned record keeps
the foreign-key field at the reference path unchanged. -/
theorem claim_C9_counterexample :
    getPath (parsePath "_embedded.x") r9 = .vstr idA ∧
    (embedAsReference Eref0 r9 "_embedded.x" (some "x") none).1 =
      vobj [("_embedded", vobj [("x", vobj [("id", .vstr idA)])])] ∧
    getPath (parsePath "_embedded.x")
      (embedAsReference Eref0 r9 "_embedded.x" (some "x") none).1 ≠ .vstr idA := by
  refine ⟨rfl, rfl, fun h => Value.noConfusion h⟩

/-- For a non-sequence target and no object path, the embedder is exactly
the single-record processing step. -/
theorem embedAsReference_scalar (E : RefEntity) (r : Value) (rp : String)
    (en : Option String) (hna : isArr r = false) :
    embedAsReference E r rp en none =
      embedRecord E (parsePath rp) (embedKey en rp) r := by
  cases r with
  | arr l => simp [isArr] at hna
  | undef => rfl
  | vnull => rfl
  | vbool b => rfl
  | vnum n => rfl
  | vstr s => rfl
  | oid s => rfl
  | obj fs => rfl

/-- Claim C9 (amended): for a record processed by `embedAsReference`
(single record, no object path) whose reference path holds a truthy
value, provided the reference path does not itself lie inside the
reserved `_embedded` side channel: every field other than `_embedded`
reads unchanged (in particular the original foreign-key field at the
reference path is kept unchanged), the resolved entities are read under
`_embedded[embedName or referencePath]`, and every other entry of a
pre-existing `_embedded` map is preserved (merge, not replacement). -/
theorem claim_C9_embed_frame_amended (E : RefEntity) (r : Value) (rp : String)
    (en : Option String)
    (hna : isArr r = false)
    (htr : truthy (getPath (parsePath rp) r) = true)
    (hhd : ∀ rest, parsePath rp ≠ "_embedded" :: rest) :
    (∀ k, k ≠ "_embedded" →
      lookupV k (embedAsReference E r rp en none).1 = lookupV k r) ∧
    getPath (parsePath rp) (embedAsReference E r rp en none).1 =
      getPath (parsePath rp) r ∧
    lookupV (embedKey en rp) (lookupV "_embedded" (embedAsReference E r rp en none).1) =
      (match getPath (parsePath rp) r with
        | .arr xs => E.findByIds (.arr xs)
        | v => E.findById v) ∧
    (∀ k2, k2 ≠ embedKey en rp →
      lookupV k2 (lookupV "_embedded" (embedAsReference E r rp en none).1) =
        lookupV k2 (lookupV "_embedded" r)) := by
  rw [embedAsReference_scalar E r rp en hna]
  obtain ⟨fs, rfl⟩ := obj_of_truthy_getPath htr
  have hres : (embedRecord E (parsePath rp) (embedKey en rp) (Value.obj fs)).1 =
      Value.obj (insertJS fs "_embedded"
        (Value.obj (insertJS
          (if truthy (lookupF "_embedded" fs) then asFields (lookupF "_embedded" fs) else .nil)
          (embedKey en rp)
          (match getPath (parsePath rp) (Value.obj fs) with
            | .arr xs => E.findByIds (.arr xs)
            | v => E.findById v)))) := by
    cases hm : getPath (parsePath rp) (Value.obj fs) with
    | arr xs => simp [embedRecord, hm, htr.symm.trans (congrArg truthy hm), lookupV, asFields]
    | undef => rw [hm] at htr; simp [truthy] at htr
    | vnull => rw [hm] at htr; simp [truthy] at htr
    | vbool b => simp [embedRecord, hm, hm ▸ htr, lookupV, asFields]
    | vnum n => simp [embedRecord, hm, hm ▸ htr, lookupV, asFields]
    | vstr s => simp [embedRecord, hm, hm ▸ htr, lookupV, asFields]
    | oid s => simp [embedRecord, hm, hm ▸ htr, lookupV, asFields]
    | obj o => simp [embedRecord, hm, hm ▸ htr, lookupV, asFields]
  rw [hres]
  refine ⟨fun k hk => ?_, ?_, ?_, fun k2 hk2 => ?_⟩
  · simp only [lookupV]
    exact lookupF_insert_other _ _ (Ne.symm hk)
  · cases hp : parsePath rp with
    | nil => exact absurd hp (parsePath_ne_nil rp)
    | cons k rest =>
        have hk : k ≠ "_embedded" := fun he => hhd rest (by rw [hp, he])
        cases rest with
        | nil =>
            rw [getPath_single, getPath_single]
            simp only [lookupV]
            exact lookupF_insert_other _ _ (Ne.symm hk)
        | cons k2 r2 =>
            rw [getPath_cons2, getPath_cons2]
            simp only [lookupV]
            rw [lookupF_insert_other _ _ (Ne.symm hk)]
  · rw [lookupV_obj, lookupF_insert_self, lookupV_obj]
    exact lookupF_insert_self _ _ _
  · rw [lookupV_obj "_embedded", lookupF_insert_self, lookupV_obj k2,
      lookupF_insert_other _ _ (Ne.symm hk2), lookupV_obj "_embedded"]
    rcases obj_or_not (lookupF "_embedded" fs) with ⟨ofs, he⟩ | hne
    · rw [he]
      simp [truthy, asFields, lookupV_obj]
    · rw [asFields_nonobj _ hne, lookupV_nonobj _ _ hne]
      cases hb : truthy (lookupF "_embedded" fs) <;> simp [hb, lookupF]

theorem claim_C9_embed_frame_amended_witness :
    lookupV "fooId" ((embedAsReference Eref0
      (vobj [("fooId", .vstr idA), ("b", .vnum 2), ("_embedded", vobj [("old", .vnum 7)])])
      "fooId" (some "foo") none).1) = .vstr idA ∧
    lookupV "foo" (lookupV "_embedded" ((embedAsReference Eref0
      (vobj [("fooId", .vstr idA), ("b", .vnum 2), ("_embedded", vobj [("old", .vnum 7)])])
      "fooId" (some "foo") none).1)) = vobj [("id", .vstr idA)] ∧
    lookupV "old" (lookupV "_embedded" ((embedAsReference Eref0
      (vobj [("fooId", .vstr idA), ("b", .vnum 2), ("_embedded", vobj [("old", .vnum 7)])])
      "fooId" (some "foo") none).1)) = .vnum 7 := by
  have hhd : ∀ rest, parsePath "fooId" ≠ "_embedded" :: rest := by
    intro rest hr
    rw [show parsePath "fooId" = ["fooId"] from rfl] at hr
    injection hr with h1 _
    exact absurd h1 (by decide)
  have h := claim_C9_embed_frame_amended Eref0
    (vobj [("fooId", .vstr idA), ("b", .vnum 2), ("_embedded", vobj [("old", .vnum 7)])])
    "fooId" (some "foo") rfl rfl hhd
  exact ⟨(h.1 "fooId" (by decide)).trans rfl, (h.2.2.1).trans rfl,
    (h.2.2.2 "old" (by decide)).trans rfl⟩

-- ### Round-trip core lemmas

theorem toDocStep_eq_conv : EntityMongoDB.toDocStep = convStep EntityMongoDB.castOid := rfl

theorem fromDocStep_eq_conv : EntityMongoDB.fromDocStep = convStep EntityMongoDB.castStr := rfl

namespace Value

theorem hasOwnF_of_lookup_ne (fs : VFields) (k : String) (h : lookupF k fs ≠ .undef) :
    hasOwnF k fs = true := by
  induction fs using VFields.inductionOn with
  | nil => exact absurd rfl h
  | fcons k2 v t ih =>
      by_cases h2 : k2 = k
      · simp [hasOwnF, h2]
      · simp only [lookupF, h2, if_false] at h
        simp only [hasOwnF, h2, if_false]
        exact ih h

theorem lookupF_of_not_has (fs : VFields) (k : String) (h : hasOwnF k fs = false) :
    lookupF k fs = .undef := by
  induction fs using VFields.inductionOn with
  | nil => rfl
  | fcons k2 v t ih =>
      by_cases h2 : k2 = k
      · rw [h2] at h; simp [hasOwnF] at h
      · simp only [hasOwnF, h2, if_false] at h
        simp only [lookupF, h2, if_false]
        exact ih h

theorem insert_insert_same (fs : VFields) (k : String) (a b : Value) :
    insertJS (insertJS fs k a) k b = insertJS fs k b := by
  induction fs using VFields.inductionOn with
  | nil => simp [insertJS]
  | fcons k2 w t ih =>
      by_cases h : k2 = k
      · simp [insertJS, h]
      · simp [insertJS, h, ih]

theorem insert_insert_comm (fs : VFields) (k k2 : String) (a b : Value)
    (hk : k ≠ k2) (h1 : hasOwnF k fs = true) (h2 : hasOwnF k2 fs = true) :
    insertJS (insertJS fs k a) k2 b = insertJS (insertJS fs k2 b) k a := by
  induction fs using VFields.inductionOn with
  | nil => simp [hasOwnF] at h1
  | fcons k3 w t ih =>
      by_cases e1 : k3 = k
      · subst e1
        simp [insertJS, hk, Ne.symm hk]
      · by_cases e2 : k3 = k2
        · subst e2
          simp [insertJS, hk, Ne.symm hk, e1]
        · simp only [hasOwnF, e1, if_false] at h1
          simp only [hasOwnF, e2, if_false] at h2
          simp [insertJS, e1, e2, ih h1 h2]

theorem insertJS_self (fs : VFields) (k : String) (v : Value)
    (h : hasOwnF k fs = true) (hv : lookupF k fs = v) : insertJS fs k v = fs := by
  induction fs using VFields.inductionOn with
  | nil => simp [hasOwnF] at h
  | fcons k2 w t ih =>
      by_cases h2 : k2 = k
      · subst h2
        have hv2 : w = v := by simpa [lookupF] using hv
        simp [insertJS, hv2]
      · simp only [hasOwnF, h2, if_false] at h
        simp only [lookupF, h2, if_false] at hv
        simp [insertJS, h2, ih h hv]

theorem setPath_nonobj (p : List String) (v c : Value) (hp : p ≠ [])
    (hv : ∀ fs, v ≠ .obj fs) : setPath p c v = v := by
  cases p with
  | nil => exact absurd rfl hp
  | cons k rest =>
      cases rest with
      | nil =>
          cases v with
          | obj fs => exact absurd rfl (hv fs)
          | undef => rfl
          | vnull => rfl
          | vbool b => rfl
          | vnum n => rfl
          | vstr s => rfl
          | oid s => rfl
          | arr l => rfl
      | cons k2 r2 =>
          cases v with
          | obj fs => exact absurd rfl (hv fs)
          | undef => rfl
          | vnull => rfl
          | vbool b => rfl
          | vnum n => rfl
          | vstr s => rfl
          | oid s => rfl
          | arr l => rfl

theorem setPath_single_obj (k : String) (fs : VFields) (c : Value) :
    setPath [k] c (Value.obj fs) = Value.obj (insertJS fs k c) := rfl

theorem setPath_cons2_obj (k k2 : String) (rest : List String) (fs : VFields) (c : Value) :
    setPath (k :: k2 :: rest) c (Value.obj fs) =
      Value.obj (insertJS fs k
        (setPath (k2 :: rest) c
          (match lookupF k fs with
            | .obj cf => Value.obj cf
            | _ => Value.obj .nil))) := rfl

/-- Reading a path headed by a key different from an inserted one is
unchanged. -/
theorem getPath_obj_insert_other (pr : List String) (k k2 : String) (fs : VFields)
    (S : Value) (hk : k2 ≠ k) :
    getPath (k :: pr) (Value.obj (insertJS fs k2 S)) = getPath (k :: pr) (Value.obj fs) := by
  cases pr with
  | nil => rw [getPath_single, getPath_single, lookupV_obj, lookupV_obj,
      lookupF_insert_other _ _ hk]
  | cons a b => rw [getPath_cons2, getPath_cons2, lookupV_obj, lookupV_obj,
      lookupF_insert_other _ _ hk]

theorem getPath_cons_undef (k : String) (rest : List String) :
    getPath (k :: rest) .undef = .undef := by
  cases rest with
  | nil => rfl
  | cons a b =>
      rw [getPath_cons2]
      exact getPath_nonobj _ _ (by simp) (fun fs h => Value.noConfusion h)

theorem path_trichotomy (p q : List String) :
    divergesB p q = true ∨ (∃ r, q = p ++ r) ∨ (∃ r, p = q ++ r) := by
  induction p generalizing q with
  | nil => exact Or.inr (Or.inl ⟨q, rfl⟩)
  | cons k pr ih =>
      cases q with
      | nil => exact Or.inr (Or.inr ⟨k :: pr, rfl⟩)
      | cons k2 qr =>
          by_cases hk : k = k2
          · subst hk
            rcases ih qr with h | ⟨r, hr⟩ | ⟨r, hr⟩
            · exact Or.inl (by simp [divergesB, h])
            · exact Or.inr (Or.inl ⟨r, by rw [hr]; rfl⟩)
            · exact Or.inr (Or.inr ⟨r, by rw [hr]; rfl⟩)
          · exact Or.inl (by simp [divergesB, hk])

theorem divergesB_symm (p q : List String) (h : divergesB p q = true) :
    divergesB q p = true := by
  induction p generalizing q with
  | nil => simp [divergesB] at h
  | cons k pr ih =>
      cases q with
      | nil => simp [divergesB] at h
      | cons k2 qr =>
          by_cases hk : k = k2
          · subst hk
            simp only [divergesB, if_pos rfl] at h ⊢
            exact ih qr h
          · simp [divergesB, Ne.symm hk]

theorem divergesB_cons (p q : List String) (hp : divergesB p q = true) :
    (p ≠ [] ∧ q ≠ []) := by
  cases p with
  | nil => simp [divergesB] at hp
  | cons k pr =>
      cases q with
      | nil => simp [divergesB] at hp
      | cons k2 qr => exact ⟨by simp, by simp⟩


theorem asObjOrNil_obj (cf : VFields) : asObjOrNil (Value.obj cf) = Value.obj cf := rfl

theorem asObjOrNil_nonobj (v : Value) (hv : ∀ cf, v ≠ .obj cf) :
    asObjOrNil v = Value.obj .nil := by
  cases v with
  | obj cf => exact absurd rfl (hv cf)
  | undef => rfl
  | vnull => rfl
  | vbool b => rfl
  | vnum n => rfl
  | vstr s => rfl
  | oid s => rfl
  | arr l => rfl

theorem setPath_cons2_child (k k2 : String) (rest : List String) (c : Value) (fs : VFields) :
    setPath (k :: k2 :: rest) c (Value.obj fs) =
      Value.obj (insertJS fs k (setPath (k2 :: rest) c (asObjOrNil (lookupF k fs)))) := by
  cases hc : lookupF k fs with
  | obj cf => rw [setPath_cons2_obj, hc]; rfl
  | undef => rw [setPath_cons2_obj, hc]; rfl
  | vnull => rw [setPath_cons2_obj, hc]; rfl
  | vbool b => rw [setPath_cons2_obj, hc]; rfl
  | vnum n => rw [setPath_cons2_obj, hc]; rfl
  | vstr s => rw [setPath_cons2_obj, hc]; rfl
  | oid s => rw [setPath_cons2_obj, hc]; rfl
  | arr l => rw [setPath_cons2_obj, hc]; rfl

theorem getPath_obj_nil (x : String) (y : List String) :
    getPath (x :: y) (Value.obj .nil) = .undef := by
  cases y with
  | nil => rfl
  | cons a b =>
      rw [getPath_cons2]
      exact getPath_cons_undef a b

theorem getPath_setPath_diverge (q : List String) (c : Value) (p : List String) (v : Value)
    (h : divergesB p q = true) : getPath p (setPath q c v) = getPath p v := by
  induction q generalizing p v with
  | nil => exact absurd rfl (divergesB_cons p [] h).2
  | cons k2 qr ih =>
      obtain ⟨hpne, _⟩ := divergesB_cons p (k2 :: qr) h
      cases p with
      | nil => exact absurd rfl hpne
      | cons k pr =>
          rcases obj_or_not v with ⟨fs, rfl⟩ | hno
          · by_cases hk : k = k2
            · subst hk
              have hd : divergesB pr qr = true := by simpa [divergesB] using h
              obtain ⟨hprne, hqrne⟩ := divergesB_cons pr qr hd
              obtain ⟨x, y, rfl⟩ : ∃ x y, pr = x :: y := by
                cases pr with
                | nil => exact absurd rfl hprne
                | cons x y => exact ⟨x, y, rfl⟩
              obtain ⟨a, b, rfl⟩ : ∃ a b, qr = a :: b := by
                cases qr with
                | nil => exact absurd rfl hqrne
                | cons a b => exact ⟨a, b, rfl⟩
              rw [setPath_cons2_child, getPath_cons2, getPath_cons2, lookupV_obj,
                lookupV_obj, lookupF_insert_self]
              cases hc : lookupF k fs with
              | obj cf =>
                  rw [asObjOrNil_obj]
                  exact ih (x :: y) (Value.obj cf) hd
              | undef =>
                  rw [asObjOrNil_nonobj _ (fun cf h2 => Value.noConfusion h2),
                    ih (x :: y) (Value.obj .nil) hd, getPath_obj_nil, getPath_cons_undef]
              | vnull =>
                  rw [asObjOrNil_nonobj _ (fun cf h2 => Value.noConfusion h2),
                    ih (x :: y) (Value.obj .nil) hd, getPath_obj_nil,
                    getPath_nonobj _ _ (by simp) (fun cf h2 => Value.noConfusion h2)]
              | vbool b2 =>
                  rw [asObjOrNil_nonobj _ (fun cf h2 => Value.noConfusion h2),
                    ih (x :: y) (Value.obj .nil) hd, getPath_obj_nil,
                    getPath_nonobj _ _ (by simp) (fun cf h2 => Value.noConfusion h2)]
              | vnum n =>
                  rw [asObjOrNil_nonobj _ (fun cf h2 => Value.noConfusion h2),
                    ih (x :: y) (Value.obj .nil) hd, getPath_obj_nil,
                    getPath_nonobj _ _ (by simp) (fun cf h2 => Value.noConfusion h2)]
              | vstr s =>
                  rw [asObjOrNil_nonobj _ (fun cf h2 => Value.noConfusion h2),
                    ih (x :: y) (Value.obj .nil) hd, getPath_obj_nil,
                    getPath_nonobj _ _ (by simp) (fun cf h2 => Value.noConfusion h2)]
              | oid s =>
                  rw [asObjOrNil_nonobj _ (fun cf h2 => Value.noConfusion h2),
                    ih (x :: y) (Value.obj .nil) hd, getPath_obj_nil,
                    getPath_nonobj _ _ (by simp) (fun cf h2 => Value.noConfusion h2)]
              | arr l =>
                  rw [asObjOrNil_nonobj _ (fun cf h2 => Value.noConfusion h2),
                    ih (x :: y) (Value.obj .nil) hd, getPath_obj_nil,
                    getPath_nonobj _ _ (by simp) (fun cf h2 => Value.noConfusion h2)]
            · cases qr with
              | nil =>
                  rw [setPath_single_obj]
                  exact getPath_obj_insert_other pr k k2 fs c (fun he => hk he.symm)
              | cons a b =>
                  rw [setPath_cons2_child]
                  exact getPath_obj_insert_other pr k k2 fs _ (fun he => hk he.symm)
          · rw [setPath_nonobj _ _ _ (by simp) hno]

theorem truthy_ne_undef {v : Value} (h : truthy v = true) : v ≠ .undef := by
  intro he; rw [he] at h; simp [truthy] at h

theorem setPath_obj_shape (p : List String) (c : Value) (fs : VFields) (hp : p ≠ []) :
    ∃ gs, setPath p c (Value.obj fs) = Value.obj gs := by
  cases p with
  | nil => exact absurd rfl hp
  | cons k rest =>
      cases rest with
      | nil => exact ⟨insertJS fs k c, rfl⟩
      | cons k2 r2 =>
          exact ⟨insertJS fs k (setPath (k2 :: r2) c (asObjOrNil (lookupF k fs))),
            setPath_cons2_child k k2 r2 c fs⟩

theorem getPath_setPath_self (q : List String) (c v : Value)
    (h : truthy (getPath q v) = true) : getPath q (setPath q c v) = c := by
  induction q generalizing v with
  | nil => simp [getPath, truthy] at h
  | cons k rest ih =>
      obtain ⟨fs, rfl⟩ := obj_of_truthy_getPath h
      cases rest with
      | nil =>
          rw [setPath_single_obj, getPath_single, lookupV_obj, lookupF_insert_self]
      | cons k2 r2 =>
          rw [getPath_cons2, lookupV_obj] at h
          obtain ⟨cf, hcf⟩ := obj_of_truthy_getPath h
          rw [hcf] at h
          rw [setPath_cons2_child, hcf, asObjOrNil_obj, getPath_cons2, lookupV_obj,
            lookupF_insert_self]
          exact ih (Value.obj cf) h

theorem setPath_getPath_self (q : List String) (v : Value)
    (h : truthy (getPath q v) = true) : setPath q (getPath q v) v = v := by
  induction q generalizing v with
  | nil => simp [getPath, truthy] at h
  | cons k rest ih =>
      obtain ⟨fs, rfl⟩ := obj_of_truthy_getPath h
      cases rest with
      | nil =>
          rw [getPath_single, lookupV_obj] at h ⊢
          rw [setPath_single_obj,
            insertJS_self fs k _ (hasOwnF_of_lookup_ne fs k (truthy_ne_undef h)) rfl]
      | cons k2 r2 =>
          rw [getPath_cons2, lookupV_obj] at h ⊢
          obtain ⟨cf, hcf⟩ := obj_of_truthy_getPath h
          rw [hcf] at h ⊢
          rw [setPath_cons2_child, hcf, asObjOrNil_obj, ih (Value.obj cf) h,
            insertJS_self fs k _ (hasOwnF_of_lookup_ne fs k
              (fun he => Value.noConfusion (he ▸ hcf).symm)) hcf]

theorem setPath_setPath_collapse (q : List String) (a b v : Value)
    (h : truthy (getPath q v) = true) :
    setPath q b (setPath q a v) = setPath q b v := by
  induction q generalizing v with
  | nil => simp [getPath, truthy] at h
  | cons k rest ih =>
      obtain ⟨fs, rfl⟩ := obj_of_truthy_getPath h
      cases rest with
      | nil =>
          rw [setPath_single_obj, setPath_single_obj, setPath_single_obj,
            insert_insert_same]
      | cons k2 r2 =>
          rw [getPath_cons2, lookupV_obj] at h
          obtain ⟨cf, hcf⟩ := obj_of_truthy_getPath h
          rw [hcf] at h
          rw [setPath_cons2_child, hcf, asObjOrNil_obj]
          obtain ⟨ga, hga⟩ := setPath_obj_shape (k2 :: r2) a cf (by simp)
          rw [setPath_cons2_child, lookupF_insert_self, hga, asObjOrNil_obj, ← hga,
            insert_insert_same, ih (Value.obj cf) h,
            setPath_cons2_child, hcf, asObjOrNil_obj]

theorem setPath_setPath_comm (q : List String) (q2 : List String) (c c2 v : Value)
    (hd : divergesB q q2 = true)
    (h1 : truthy (getPath q v) = true) (h2 : truthy (getPath q2 v) = true) :
    setPath q2 c2 (setPath q c v) = setPath q c (setPath q2 c2 v) := by
  induction q generalizing q2 v with
  | nil => exact absurd rfl (divergesB_cons [] q2 hd).1
  | cons k qr ih =>
      obtain ⟨-, hq2ne⟩ := divergesB_cons (k :: qr) q2 hd
      obtain ⟨k2, q2r, rfl⟩ : ∃ k2 q2r, q2 = k2 :: q2r := by
        cases q2 with
        | nil => exact absurd rfl hq2ne
        | cons k2 q2r => exact ⟨k2, q2r, rfl⟩
      obtain ⟨fs, rfl⟩ := obj_of_truthy_getPath h1
      have hk1ne : lookupF k fs ≠ .undef := by
        cases qr with
        | nil =>
            rw [getPath_single, lookupV_obj] at h1
            exact truthy_ne_undef h1
        | cons a b =>
            rw [getPath_cons2, lookupV_obj] at h1
            intro he
            rw [he, getPath_cons_undef] at h1
            simp [truthy] at h1
      have hk2ne : lookupF k2 fs ≠ .undef := by
        cases q2r with
        | nil =>
            rw [getPath_single, lookupV_obj] at h2
            exact truthy_ne_undef h2
        | cons a b =>
            rw [getPath_cons2, lookupV_obj] at h2
            intro he
            rw [he, getPath_cons_undef] at h2
            simp [truthy] at h2
      have hh1 : hasOwnF k fs = true := hasOwnF_of_lookup_ne fs k hk1ne
      have hh2 : hasOwnF k2 fs = true := hasOwnF_of_lookup_ne fs k2 hk2ne
      by_cases hk : k = k2
      · subst hk
        have hdr : divergesB qr q2r = true := by simpa [divergesB] using hd
        obtain ⟨hqrne, hq2rne⟩ := divergesB_cons qr q2r hdr
        obtain ⟨x, y, rfl⟩ : ∃ x y, qr = x :: y := by
          cases qr with
          | nil => exact absurd rfl hqrne
          | cons x y => exact ⟨x, y, rfl⟩
        obtain ⟨a, b, rfl⟩ : ∃ a b, q2r = a :: b := by
          cases q2r with
          | nil => exact absurd rfl hq2rne
          | cons a b => exact ⟨a, b, rfl⟩
        rw [getPath_cons2, lookupV_obj] at h1 h2
        obtain ⟨cf, hcf⟩ := obj_of_truthy_getPath h1
        rw [hcf] at h1 h2
        rw [setPath_cons2_child, hcf, asObjOrNil_obj]
        obtain ⟨ga, hga⟩ := setPath_obj_shape (x :: y) c cf (by simp)
        rw [setPath_cons2_child, lookupF_insert_self, hga, asObjOrNil_obj, ← hga,
          insert_insert_same]
        rw [setPath_cons2_child, hcf, asObjOrNil_obj]
        obtain ⟨gb, hgb⟩ := setPath_obj_shape (a :: b) c2 cf (by simp)
        rw [setPath_cons2_child, lookupF_insert_self, hgb, asObjOrNil_obj, ← hgb,
          insert_insert_same]
        rw [ih (a :: b) (Value.obj cf) hdr h1 h2]
      · -- distinct head keys: the two updates touch different entries
        cases qr with
        | nil =>
            cases q2r with
            | nil =>
                rw [setPath_single_obj, setPath_single_obj, setPath_single_obj,
                  setPath_single_obj]
                exact congrArg Value.obj (insert_insert_comm fs k k2 c c2 hk hh1 hh2)
            | cons a b =>
                rw [setPath_single_obj, setPath_cons2_child,
                  lookupF_insert_other fs c hk, setPath_cons2_child, setPath_single_obj]
                exact congrArg Value.obj (insert_insert_comm fs k k2 _ _ hk hh1 hh2)
        | cons x y =>
            cases q2r with
            | nil =>
                rw [setPath_cons2_child, setPath_single_obj, setPath_single_obj,
                  setPath_cons2_child, lookupF_insert_other fs c2 (fun he => hk he.symm)]
                exact congrArg Value.obj (insert_insert_comm fs k k2 _ _ hk hh1 hh2)
            | cons a b =>
                rw [setPath_cons2_child, setPath_cons2_child,
                  lookupF_insert_other fs _ hk, setPath_cons2_child, setPath_cons2_child,
                  lookupF_insert_other fs _ (fun he => hk he.symm)]
                exact congrArg Value.obj (insert_insert_comm fs k k2 _ _ hk hh1 hh2)

end Value

theorem isIdStr_ne_empty {s : String} (h : isIdStr s = true) : s ≠ "" := by
  intro he
  subst he
  simp [isIdStr] at h

theorem truthy_of_isIdVal {v : Value} (h : isIdVal v = true) : truthy v = true := by
  cases v with
  | vstr s =>
      have : s ≠ "" := isIdStr_ne_empty (by simpa [isIdVal, isIdV] using h)
      simp [truthy, this]
  | arr l => rfl
  | undef => simp [isIdVal, isIdV] at h
  | vnull => simp [isIdVal, isIdV] at h
  | vbool b => simp [isIdVal, isIdV] at h
  | vnum n => simp [isIdVal, isIdV] at h
  | oid s => simp [isIdVal, isIdV] at h
  | obj fs => simp [isIdVal, isIdV] at h

theorem isIdVal_undef : isIdVal .undef = false := rfl

theorem isIdVal_not_obj {v : Value} (h : isIdVal v = true) : ∀ fs, v ≠ .obj fs := by
  intro fs he
  subst he
  simp [isIdVal, isIdV] at h

theorem castOid_not_obj {v : Value} (h : isIdVal v = true) :
    ∀ fs, EntityMongoDB.castOid v ≠ .obj fs := by
  cases v with
  | vstr s => exact fun fs h2 => Value.noConfusion h2
  | arr l => exact fun fs h2 => Value.noConfusion h2
  | undef => simp [isIdVal, isIdV] at h
  | vnull => simp [isIdVal, isIdV] at h
  | vbool b => simp [isIdVal, isIdV] at h
  | vnum n => simp [isIdVal, isIdV] at h
  | oid s => simp [isIdVal, isIdV] at h
  | obj fs => simp [isIdVal, isIdV] at h

theorem truthy_castOid {v : Value} (h : isIdVal v = true) :
    truthy (EntityMongoDB.castOid v) = true := by
  cases v with
  | vstr s => rfl
  | arr l => rfl
  | undef => simp [isIdVal, isIdV] at h
  | vnull => simp [isIdVal, isIdV] at h
  | vbool b => simp [isIdVal, isIdV] at h
  | vnum n => simp [isIdVal, isIdV] at h
  | oid s => simp [isIdVal, isIdV] at h
  | obj fs => simp [isIdVal, isIdV] at h

theorem vlMap_toString_monkId {l : VList} (h : isIdList l = true) :
    vlMap jsToString (vlMap monkId l) = l := by
  induction l using VList.inductionOn with
  | nil => rfl
  | cons v t ih =>
      have hb : isIdV v = true ∧ isIdList t = true := by
        simpa [isIdList, Bool.and_eq_true] using h
      obtain ⟨hv, ht⟩ := hb
      cases v with
      | vstr s => simp [vlMap, monkId, jsToString, ih ht]
      | undef => simp [isIdV] at hv
      | vnull => simp [isIdV] at hv
      | vbool b => simp [isIdV] at hv
      | vnum n => simp [isIdV] at hv
      | oid s => simp [isIdV] at hv
      | arr l2 => simp [isIdV] at hv
      | obj fs => simp [isIdV] at hv

theorem castStr_castOid {v : Value} (h : isIdVal v = true) :
    EntityMongoDB.castStr (EntityMongoDB.castOid v) = v := by
  cases v with
  | vstr s => rfl
  | arr l =>
      have hl : isIdList l = true := by simpa [isIdVal] using h
      simp [EntityMongoDB.castOid, EntityMongoDB.castStr, vlMap_toString_monkId hl]
  | undef => simp [isIdVal, isIdV] at h
  | vnull => simp [isIdVal, isIdV] at h
  | vbool b => simp [isIdVal, isIdV] at h
  | vnum n => simp [isIdVal, isIdV] at h
  | oid s => simp [isIdVal, isIdV] at h
  | obj fs => simp [isIdVal, isIdV] at h

theorem getPath_append (q r : List String) (v : Value) (hq : q ≠ []) (hr : r ≠ []) :
    getPath (q ++ r) v = getPath r (getPath q v) := by
  induction q generalizing v with
  | nil => exact absurd rfl hq
  | cons k qt ih =>
      cases qt with
      | nil =>
          cases r with
          | nil => exact absurd rfl hr
          | cons a b => rw [getPath_single]; rfl
      | cons k2 qt2 =>
          have h1 : (k :: k2 :: qt2) ++ r = k :: ((k2 :: qt2) ++ r) := rfl
          have h2 : (k2 :: qt2) ++ r = k2 :: (qt2 ++ r) := rfl
          rw [h1, h2, getPath_cons2, ← h2, ih (lookupV k v) (by simp), getPath_cons2]

/-- One codec conversion step preserves the path hypothesis at every
other declared path. -/
theorem goodP_preserved {v : Value} {q q2 : List String}
    (hne : q2 ≠ q) (hgq : goodP v q) (hgq2 : goodP v q2) :
    goodP (convStep EntityMongoDB.castOid v q) q2 := by
  by_cases ht : truthy (getPath q v) = true
  · have hval : isIdVal (getPath q v) = true := by
      rcases hgq with h | h
      · rw [h] at ht; simp [truthy] at ht
      · exact h
    have hstep : convStep EntityMongoDB.castOid v q =
        setPath q (EntityMongoDB.castOid (getPath q v)) v := by
      simp [convStep, ht]
    rw [hstep]
    cases hq2nil : q2 with
    | nil => exact Or.inl rfl
    | cons x2 y2 =>
        rw [← hq2nil]
        have hqne : q ≠ [] := by
          intro he; rw [he] at ht; simp [getPath, truthy] at ht
        rcases path_trichotomy q2 q with hd | ⟨r, hr⟩ | ⟨r, hr⟩
        · unfold goodP
          rw [getPath_setPath_diverge q _ q2 v hd]
          exact hgq2
        · -- q = q2 ++ r
          cases r with
          | nil => rw [List.append_nil] at hr; exact absurd hr.symm hne
          | cons r0 rr =>
              rw [hr, getPath_append q2 (r0 :: rr) v (by rw [hq2nil]; simp) (by simp)] at ht
              rcases hgq2 with h | h
              · rw [h] at ht
                rw [getPath_nonobj _ _ (by simp) (fun fs h2 => Value.noConfusion h2)] at ht
                simp [truthy] at ht
              · rw [getPath_nonobj _ _ (by simp) (isIdVal_not_obj h)] at ht
                simp [truthy] at ht
        · -- q2 = q ++ r
          cases r with
          | nil => rw [List.append_nil] at hr; exact absurd hr hne
          | cons r0 rr =>
              refine Or.inl ?_
              rw [hr, getPath_append q (r0 :: rr) _ hqne (by simp),
                getPath_setPath_self q _ v ht,
                getPath_nonobj _ _ (by simp) (castOid_not_obj hval)]
  · have hstep : convStep EntityMongoDB.castOid v q = v := by
      simp [convStep, ht]
    rw [hstep]
    exact hgq2

/-- The value at a declared identifier path is untouched by the
conversion fold over the other declared paths. -/
theorem getPath_foldl_stable (p : List (List String)) (v : Value) (q : List String)
    (hnp : q ∉ p) (hnd : p.Nodup)
    (hg : ∀ q2 ∈ p, goodP v q2)
    (hqv : isIdVal (getPath q v) = true) :
    getPath q (p.foldl (convStep EntityMongoDB.castOid) v) = getPath q v := by
  induction p generalizing v with
  | nil => rfl
  | cons q0 pt ih =>
      have hgq0 : goodP v q0 := hg q0 (by simp)
      have hqq0 : q ≠ q0 := fun he => hnp (by rw [he]; exact List.mem_cons_self q0 pt)
      have hnp2 : q ∉ pt := fun hm => hnp (List.mem_cons_of_mem q0 hm)
      have hnd2 : pt.Nodup := hnd.of_cons
      have hq0nin : q0 ∉ pt := (List.nodup_cons.mp hnd).1
      by_cases ht : truthy (getPath q0 v) = true
      · have hval : isIdVal (getPath q0 v) = true := by
          rcases hgq0 with h | h
          · rw [h] at ht; simp [truthy] at ht
          · exact h
        have hqne : q ≠ [] := by
          intro he
          rw [he] at hqv
          simp [getPath, isIdVal, isIdV] at hqv
        have hq0ne : q0 ≠ [] := by
          intro he; rw [he] at ht; simp [getPath, truthy] at ht
        have hstep : getPath q (setPath q0 (EntityMongoDB.castOid (getPath q0 v)) v) =
            getPath q v := by
          rcases path_trichotomy q q0 with hd | ⟨r, hr⟩ | ⟨r, hr⟩
          · exact getPath_setPath_diverge q0 _ q v hd
          · cases r with
            | nil => rw [List.append_nil] at hr; exact absurd hr.symm hqq0
            | cons r0 rr =>
                rw [hr, getPath_append q (r0 :: rr) v hqne (by simp),
                  getPath_nonobj _ _ (by simp) (isIdVal_not_obj hqv)] at ht
                simp [truthy] at ht
          · cases r with
            | nil => rw [List.append_nil] at hr; exact absurd hr hqq0
            | cons r0 rr =>
                rw [hr, getPath_append q0 (r0 :: rr) v hq0ne (by simp),
                  getPath_nonobj _ _ (by simp) (isIdVal_not_obj hval)] at hqv
                simp [isIdVal, isIdV] at hqv
        have hstepv : convStep EntityMongoDB.castOid v q0 =
            setPath q0 (EntityMongoDB.castOid (getPath q0 v)) v := by
          simp [convStep, ht]
        rw [List.foldl_cons, hstepv]
        have hg2 : ∀ q2 ∈ pt, goodP (setPath q0 (EntityMongoDB.castOid (getPath q0 v)) v) q2 := by
          intro q2 hm
          have := @goodP_preserved v q0 q2
            (fun he => hq0nin (he ▸ hm)) hgq0 (hg q2 (List.mem_cons_of_mem q0 hm))
          rwa [hstepv] at this
        rw [ih _ hnp2 hnd2 hg2 (by rw [hstep]; exact hqv), hstep]
      · have hstepv : convStep EntityMongoDB.castOid v q0 = v := by
          simp [convStep, ht]
        rw [List.foldl_cons, hstepv]
        exact ih v hnp2 hnd2 (fun q2 hm => hg q2 (List.mem_cons_of_mem q0 hm)) hqv

/-- A path that reads as absent keeps reading as absent through the
conversion fold. -/
theorem getPath_foldl_undef (p : List (List String)) (v : Value) (q : List String)
    (hnd : p.Nodup) (hg : ∀ q2 ∈ p, goodP v q2)
    (hq : getPath q v = .undef) :
    getPath q (p.foldl (convStep EntityMongoDB.castOid) v) = .undef := by
  cases hqnil : q with
  | nil => simp [getPath]
  | cons x y =>
  rw [← hqnil]
  induction p generalizing v with
  | nil => exact hq
  | cons q0 pt ih =>
      have hgq0 : goodP v q0 := hg q0 (by simp)
      have hq0nin : q0 ∉ pt := (List.nodup_cons.mp hnd).1
      have hnd2 : pt.Nodup := hnd.of_cons
      by_cases ht : truthy (getPath q0 v) = true
      · have hval : isIdVal (getPath q0 v) = true := by
          rcases hgq0 with h | h
          · rw [h] at ht; simp [truthy] at ht
          · exact h
        have hq0ne : q0 ≠ [] := by
          intro he; rw [he] at ht; simp [getPath, truthy] at ht
        have hstep : getPath q (setPath q0 (EntityMongoDB.castOid (getPath q0 v)) v) =
            .undef := by
          rcases path_trichotomy q q0 with hd | ⟨r, hr⟩ | ⟨r, hr⟩
          · rw [getPath_setPath_diverge q0 _ q v hd]; exact hq
          · cases r with
            | nil =>
                rw [List.append_nil] at hr
                rw [hr, hq] at ht
                simp [truthy] at ht
            | cons r0 rr =>
                rw [hr, getPath_append q (r0 :: rr) v (by rw [hqnil]; simp) (by simp), hq,
                  getPath_nonobj _ _ (by simp) (fun fs h2 => Value.noConfusion h2)] at ht
                simp [truthy] at ht
          · cases r with
            | nil =>
                rw [List.append_nil] at hr
                rw [← hr, hq] at ht
                simp [truthy] at ht
            | cons r0 rr =>
                rw [hr, getPath_append q0 (r0 :: rr) _ hq0ne (by simp),
                  getPath_setPath_self q0 _ v ht,
                  getPath_nonobj _ _ (by simp) (castOid_not_obj hval)]
        have hstepv : convStep EntityMongoDB.castOid v q0 =
            setPath q0 (EntityMongoDB.castOid (getPath q0 v)) v := by
          simp [convStep, ht]
        rw [List.foldl_cons, hstepv]
        have hg2 : ∀ q2 ∈ pt, goodP (setPath q0 (EntityMongoDB.castOid (getPath q0 v)) v) q2 := by
          intro q2 hm
          have := @goodP_preserved v q0 q2
            (fun he => hq0nin (he ▸ hm)) hgq0 (hg q2 (List.mem_cons_of_mem q0 hm))
          rwa [hstepv] at this
        exact ih _ hnd2 hg2 hstep
      · have hstepv : convStep EntityMongoDB.castOid v q0 = v := by
          simp [convStep, ht]
        rw [List.foldl_cons, hstepv]
        exact ih v hnd2 (fun q2 hm => hg q2 (List.mem_cons_of_mem q0 hm)) hq

/-- Writing the converted value at a declared path commutes with the
conversion fold over the remaining (distinct) declared paths. -/
theorem foldl_setPath_comm (p : List (List String)) (v : Value) (q : List String) (c : Value)
    (hnp : q ∉ p) (hnd : p.Nodup) (hg : ∀ q2 ∈ p, goodP v q2)
    (hqv : isIdVal (getPath q v) = true)
    (hc : ∀ fs, c ≠ .obj fs) :
    p.foldl (convStep EntityMongoDB.castOid) (setPath q c v) =
      setPath q c (p.foldl (convStep EntityMongoDB.castOid) v) := by
  induction p generalizing v with
  | nil => rfl
  | cons q0 pt ih =>
      have hgq0 : goodP v q0 := hg q0 (by simp)
      have hqq0 : q ≠ q0 := fun he => hnp (by rw [he]; exact List.mem_cons_self q0 pt)
      have hnp2 : q ∉ pt := fun hm => hnp (List.mem_cons_of_mem q0 hm)
      have hnd2 : pt.Nodup := hnd.of_cons
      have hq0nin : q0 ∉ pt := (List.nodup_cons.mp hnd).1
      have hqne : q ≠ [] := by
        intro he
        rw [he] at hqv
        simp [getPath, isIdVal, isIdV] at hqv
      have htq : truthy (getPath q v) = true := truthy_of_isIdVal hqv
      by_cases ht : truthy (getPath q0 v) = true
      · have hval : isIdVal (getPath q0 v) = true := by
          rcases hgq0 with h | h
          · rw [h] at ht; simp [truthy] at ht
          · exact h
        have hq0ne : q0 ≠ [] := by
          intro he; rw [he] at ht; simp [getPath, truthy] at ht
        -- with both paths holding identifier values, they must diverge
        have hd : divergesB q q0 = true := by
          rcases path_trichotomy q q0 with hd | ⟨r, hr⟩ | ⟨r, hr⟩
          · exact hd
          · cases r with
            | nil => rw [List.append_nil] at hr; exact absurd hr.symm hqq0
            | cons r0 rr =>
                rw [hr, getPath_append q (r0 :: rr) v hqne (by simp),
                  getPath_nonobj _ _ (by simp) (isIdVal_not_obj hqv)] at ht
                simp [truthy] at ht
          · cases r with
            | nil => rw [List.append_nil] at hr; exact absurd hr hqq0
            | cons r0 rr =>
                rw [hr, getPath_append q0 (r0 :: rr) v hq0ne (by simp),
                  getPath_nonobj _ _ (by simp) (isIdVal_not_obj hval)] at hqv
                simp [isIdVal, isIdV] at hqv
        have hget : getPath q0 (setPath q c v) = getPath q0 v :=
          getPath_setPath_diverge q c q0 v (divergesB_symm q q0 hd)
        have hstepL : convStep EntityMongoDB.castOid (setPath q c v) q0 =
            setPath q0 (EntityMongoDB.castOid (getPath q0 v)) (setPath q c v) := by
          simp [convStep, hget, ht]
        have hstepR : convStep EntityMongoDB.castOid v q0 =
            setPath q0 (EntityMongoDB.castOid (getPath q0 v)) v := by
          simp [convStep, ht]
        rw [List.foldl_cons, List.foldl_cons, hstepL, hstepR,
          setPath_setPath_comm q q0 c _ v hd htq ht]
        have hg2 : ∀ q2 ∈ pt, goodP (setPath q0 (EntityMongoDB.castOid (getPath q0 v)) v) q2 := by
          intro q2 hm
          have := @goodP_preserved v q0 q2
            (fun he => hq0nin (he ▸ hm)) hgq0 (hg q2 (List.mem_cons_of_mem q0 hm))
          rwa [hstepR] at this
        have hqv2 : isIdVal (getPath q (setPath q0 (EntityMongoDB.castOid (getPath q0 v)) v)) = true := by
          rw [getPath_setPath_diverge q0 _ q v hd]
          exact hqv
        exact ih _ hnp2 hnd2 hg2 hqv2
      · -- the step skips on both sides
        have hskip : truthy (getPath q0 (setPath q c v)) = false := by
          cases hq0shape : q0 with
          | nil => rfl
          | cons z0 zr =>
          rw [← hq0shape]
          have hq0ne : q0 ≠ [] := by rw [hq0shape]; simp
          rcases path_trichotomy q0 q with hd | ⟨r, hr⟩ | ⟨r, hr⟩
          · rw [getPath_setPath_diverge q c q0 v hd]
            exact Bool.eq_false_iff.mpr ht
          · -- q = q0 ++ r
            cases r with
            | nil => rw [List.append_nil] at hr; exact absurd hr hqq0
            | cons r0 rr =>
                rcases hgq0 with h | h
                · rw [hr, getPath_append q0 (r0 :: rr) v hq0ne (by simp), h,
                    getPath_nonobj _ _ (by simp) (fun fs h2 => Value.noConfusion h2)] at hqv
                  simp [isIdVal, isIdV] at hqv
                · exact absurd (truthy_of_isIdVal h) ht
          · -- q0 = q ++ r
            cases r with
            | nil => rw [List.append_nil] at hr; exact absurd hr.symm hqq0
            | cons r0 rr =>
                rw [hr, getPath_append q (r0 :: rr) _ hqne (by simp),
                  getPath_setPath_self q c v htq,
                  getPath_nonobj _ _ (by simp) hc]
                rfl
        have hstepL : convStep EntityMongoDB.castOid (setPath q c v) q0 = setPath q c v := by
          simp [convStep, hskip]
        have hstepR : convStep EntityMongoDB.castOid v q0 = v := by
          simp [convStep, ht]
        rw [List.foldl_cons, List.foldl_cons, hstepL, hstepR]
        exact ih v hnp2 hnd2 (fun q2 hm => hg q2 (List.mem_cons_of_mem q0 hm)) hqv

/-- Core round-trip: over any set of declared identifier paths whose
values are absent or valid identifier values, the `fromDoc` conversion
fold exactly inverts the `toDoc` conversion fold. -/
theorem fold_codec_roundtrip (p : List (List String)) (v : Value)
    (hnd : p.Nodup) (hg : ∀ q ∈ p, goodP v q) :
    List.foldl (convStep EntityMongoDB.castStr)
      (List.foldl (convStep EntityMongoDB.castOid) v p) p = v := by
  induction p generalizing v with
  | nil => rfl
  | cons q pt ih =>
      have hgq : goodP v q := hg q (by simp)
      have hqnin : q ∉ pt := (List.nodup_cons.mp hnd).1
      have hnd2 : pt.Nodup := hnd.of_cons
      have hgpt : ∀ q2 ∈ pt, goodP v q2 := fun q2 hm => hg q2 (List.mem_cons_of_mem q hm)
      rcases hgq with hqu | hqi
      · -- the path is absent: both folds skip it
        have hstepv : convStep EntityMongoDB.castOid v q = v := by
          simp [convStep, hqu, truthy]
        have hWu : getPath q (List.foldl (convStep EntityMongoDB.castOid) v pt) = .undef :=
          getPath_foldl_undef pt v q hnd2 hgpt hqu
        have hfromskip : convStep EntityMongoDB.castStr
            (List.foldl (convStep EntityMongoDB.castOid) v pt) q =
            List.foldl (convStep EntityMongoDB.castOid) v pt := by
          simp [convStep, hWu, truthy]
        rw [List.foldl_cons, List.foldl_cons, hstepv, hfromskip]
        exact ih v hnd2 hgpt
      · -- the path holds an identifier value: converted then restored
        have htq : truthy (getPath q v) = true := truthy_of_isIdVal hqi
        have hstepv : convStep EntityMongoDB.castOid v q =
            setPath q (EntityMongoDB.castOid (getPath q v)) v := by
          simp [convStep, htq]
        have hB1 : List.foldl (convStep EntityMongoDB.castOid)
            (setPath q (EntityMongoDB.castOid (getPath q v)) v) pt =
            setPath q (EntityMongoDB.castOid (getPath q v))
              (List.foldl (convStep EntityMongoDB.castOid) v pt) :=
          foldl_setPath_comm pt v q _ hqnin hnd2 hgpt hqi (castOid_not_obj hqi)
        have hZ : getPath q (List.foldl (convStep EntityMongoDB.castOid) v pt) =
            getPath q v :=
          getPath_foldl_stable pt v q hqnin hnd2 hgpt hqi
        have htZ : truthy (getPath q (List.foldl (convStep EntityMongoDB.castOid) v pt)) = true := by
          rw [hZ]; exact htq
        have hgetW : getPath q (setPath q (EntityMongoDB.castOid (getPath q v))
            (List.foldl (convStep EntityMongoDB.castOid) v pt)) =
            EntityMongoDB.castOid (getPath q v) :=
          getPath_setPath_self q _ _ htZ
        have hfromstep : convStep EntityMongoDB.castStr
            (setPath q (EntityMongoDB.castOid (getPath q v))
              (List.foldl (convStep EntityMongoDB.castOid) v pt)) q =
            List.foldl (convStep EntityMongoDB.castOid) v pt := by
          rw [convStep]
          simp only [hgetW, truthy_castOid hqi, if_pos, castStr_castOid hqi]
          rw [setPath_setPath_collapse q _ _ _ htZ, ← hZ,
            setPath_getPath_self q _ htZ]
        rw [List.foldl_cons, List.foldl_cons, hstepv, hB1, hfromstep]
        exact ih v hnd2 hgpt

-- ### Outer assembly lemmas for the codec round trip

namespace Value

theorem appendF_single (k : String) (v : Value) (b : VFields) :
    appendF (.fcons k v .nil) b = .fcons k v b := rfl

theorem insertJS_fcons_other (a k : String) (x c : Value) (w : VFields) (h : a ≠ k) :
    insertJS (.fcons a x w) k c = .fcons a x (insertJS w k c) := by
  simp [insertJS, h]

theorem insertJS_not_has (base : VFields) (k : String) (v : Value)
    (h : hasOwnF k base = false) : insertJS base k v = appendF base (.fcons k v .nil) := by
  induction base using VFields.inductionOn with
  | nil => rfl
  | fcons b w t ih =>
      by_cases hb : b = k
      · rw [hb] at h; simp [hasOwnF] at h
      · simp only [hasOwnF, hb, if_false] at h
        simp [insertJS, appendF, hb, ih h]

theorem appendF_assoc (a b c : VFields) :
    appendF (appendF a b) c = appendF a (appendF b c) := by
  induction a using VFields.inductionOn with
  | nil => rfl
  | fcons k v t ih => simp [appendF, ih]

theorem appendF_nil (a : VFields) : appendF a .nil = a := by
  induction a using VFields.inductionOn with
  | nil => rfl
  | fcons k v t ih => simp [appendF, ih]

theorem keysF_append (a b : VFields) : keysF (appendF a b) = keysF a ++ keysF b := by
  induction a using VFields.inductionOn with
  | nil => rfl
  | fcons k v t ih => simp [appendF, keysF, ih]

theorem spread_disjoint (add : VFields) (base : VFields)
    (hdis : ∀ k, hasOwnF k add = true → hasOwnF k base = false)
    (hnd : NoDupF add) :
    spreadFields base add = appendF base add := by
  induction add using VFields.inductionOn generalizing base with
  | nil => rw [appendF_nil]; rfl
  | fcons k v t ih =>
      have hnd0 : k ∉ keysF t ∧ (keysF t).Nodup := by
        simpa [NoDupF, keysF, List.nodup_cons] using hnd
      have hkb : hasOwnF k base = false := hdis k (by simp [hasOwnF])
      rw [spreadFields, insertJS_not_has base k v hkb,
        ih (appendF base (.fcons k v .nil)) ?_ hnd0.2,
        appendF_assoc, appendF_single]
      intro k2 hk2
      have hk2t : k2 ∈ keysF t := (hasOwnF_true_iff t k2).mp hk2
      have hk2k : k2 ≠ k := fun he => hnd0.1 (he ▸ hk2t)
      have hbase : hasOwnF k2 base = false := by
        refine hdis k2 ?_
        simp only [hasOwnF, hk2]
        by_cases he : k = k2
        · exact absurd he.symm hk2k
        · simp [he]
      rcases hb : hasOwnF k2 (appendF base (.fcons k v .nil)) with _ | _
      · rfl
      · exfalso
        have hm0 : k2 ∈ keysF (appendF base (.fcons k v .nil)) := (hasOwnF_true_iff _ _).mp hb
        rw [keysF_append] at hm0
        rcases List.mem_append.mp hm0 with hm | hm
        · exact absurd ((hasOwnF_true_iff base k2).mpr hm) (by simp [hbase])
        · exact hk2k (by simpa [keysF] using hm)

theorem lookupF_append_left (a b : VFields) (k : String) (h : hasOwnF k a = true) :
    lookupF k (appendF a b) = lookupF k a := by
  induction a using VFields.inductionOn with
  | nil => simp [hasOwnF] at h
  | fcons k2 v t ih =>
      by_cases hk : k2 = k
      · simp [appendF, lookupF, hk]
      · simp only [hasOwnF, hk, if_false] at h
        simp [appendF, lookupF, hk, ih h]

theorem lookupF_append_right (a b : VFields) (k : String) (h : hasOwnF k a = false) :
    lookupF k (appendF a b) = lookupF k b := by
  induction a using VFields.inductionOn with
  | nil => rfl
  | fcons k2 v t ih =>
      by_cases hk : k2 = k
      · rw [hk] at h; simp [hasOwnF] at h
      · simp only [hasOwnF, hk, if_false] at h
        simp [appendF, lookupF, hk, ih h]

end Value

/-- Exact shape of the `toDoc` reduce seed for a record with no own
`_id` field and unique keys. -/
theorem toDocInit_shape (r : VFields) (hnd : NoDupF r) (hnoid : hasOwnF "_id" r = false) :
    EntityMongoDB.toDocInit (Value.obj r) =
      .fcons "_id"
        (if truthy (lookupF "id" r) then monkId (lookupF "id" r) else .undef)
        (insertJS r "id" .undef) := by
  unfold EntityMongoDB.toDocInit
  rw [show lookupV "id" (Value.obj r) = lookupF "id" r from rfl,
    show asFields (Value.obj r) = r from rfl]
  rw [spread_disjoint r _ ?_ hnd]
  · rw [appendF_single, insertJS_fcons_other _ _ _ _ _ (by decide)]
  · intro k hk
    by_cases he : "_id" = k
    · rw [← he] at hk
      exact absurd hk (by simp [hnoid])
    · simp [hasOwnF, he]

-- step behavior at the special top-level keys

theorem convStep_nil_path (f : Value → Value) (v : Value) : convStep f v [] = v := by
  simp [convStep, getPath, truthy]

theorem convStep_skipkey (f : Value → Value) (g : VFields) (k : String) (rest : List String)
    (h : lookupF k g = .undef) : convStep f (Value.obj g) (k :: rest) = Value.obj g := by
  have hv : truthy (getPath (k :: rest) (Value.obj g)) = false := by
    cases rest with
    | nil => rw [getPath_single, lookupV_obj, h]; rfl
    | cons a b => rw [getPath_cons2, lookupV_obj, h, getPath_cons_undef]; rfl
  simp [convStep, hv]

theorem convStep_selfcast (f : Value → Value) (g : VFields) (k : String) (rest : List String)
    (w : Value) (h : lookupF k g = w) (hw : truthy w = true) (hf : f w = w)
    (hnon : ∀ cf, w ≠ .obj cf) :
    convStep f (Value.obj g) (k :: rest) = Value.obj g := by
  cases rest with
  | nil =>
      have hget : getPath [k] (Value.obj g) = w := by rw [getPath_single, lookupV_obj, h]
      have hown : hasOwnF k g = true :=
        hasOwnF_of_lookup_ne g k (by rw [h]; exact truthy_ne_undef hw)
      simp only [convStep, hget, hw, if_pos, hf, setPath_single_obj,
        insertJS_self g k w hown h]
  | cons a b =>
      have hv : truthy (getPath (k :: a :: b) (Value.obj g)) = false := by
        rw [getPath_cons2, lookupV_obj, h, getPath_nonobj _ _ (by simp) hnon]
        rfl
      simp [convStep, hv]

theorem convStep_falsy_nonobj (f : Value → Value) (g : VFields) (k : String)
    (rest : List String) (h : truthy (lookupF k g) = false)
    (hnon : ∀ cf, lookupF k g ≠ .obj cf) :
    convStep f (Value.obj g) (k :: rest) = Value.obj g := by
  have hv : truthy (getPath (k :: rest) (Value.obj g)) = false := by
    cases rest with
    | nil => rw [getPath_single, lookupV_obj]; exact h
    | cons a b => rw [getPath_cons2, lookupV_obj, getPath_nonobj _ _ (by simp) hnon]; rfl
  simp [convStep, hv]

theorem normalPath_parts {q : List String} (hq : normalPath q = true) :
    ∃ k rest, q = k :: rest ∧ k ≠ "id" ∧ k ≠ "_id" := by
  cases q with
  | nil => simp [normalPath] at hq
  | cons k rest =>
      have h2 : ¬(k = "id") ∧ ¬(k = "_id") := by
        simpa [normalPath, Bool.and_eq_true] using hq
      exact ⟨k, rest, rfl, h2.1, h2.2⟩

theorem convStep_normal_shape (f : Value → Value) (g : VFields) (q : List String)
    (hq : normalPath q = true) :
    ∃ g2, convStep f (Value.obj g) q = Value.obj g2 ∧
      lookupF "id" g2 = lookupF "id" g ∧ lookupF "_id" g2 = lookupF "_id" g ∧
      hasOwnF "id" g2 = hasOwnF "id" g ∧ hasOwnF "_id" g2 = hasOwnF "_id" g ∧
      (NoDupF g → NoDupF g2) := by
  obtain ⟨k, rest, rfl, hk1, hk2⟩ := normalPath_parts hq
  by_cases ht : truthy (getPath (k :: rest) (Value.obj g)) = true
  · have hset : ∀ c, ∃ X, setPath (k :: rest) c (Value.obj g) = Value.obj (insertJS g k X) := by
      intro c
      cases rest with
      | nil => exact ⟨c, rfl⟩
      | cons a b =>
          exact ⟨setPath (a :: b) c (asObjOrNil (lookupF k g)), setPath_cons2_child k a b c g⟩
    obtain ⟨X, hX⟩ := hset (f (getPath (k :: rest) (Value.obj g)))
    refine ⟨insertJS g k X, by simp [convStep, ht, hX],
      lookupF_insert_other _ _ hk1, lookupF_insert_other _ _ hk2,
      hasOwnF_insert_other _ _ hk1, hasOwnF_insert_other _ _ hk2,
      fun hnd => NoDupF_insert k X hnd⟩
  · exact ⟨g, by simp [convStep, ht], rfl, rfl, rfl, rfl, id⟩

theorem fold_elim_to (p : List (List String)) (g : VFields)
    (hid : lookupF "id" g = .undef)
    (hnid : lookupF "_id" g = .undef ∨ ∃ s, lookupF "_id" g = .oid s) :
    p.foldl (convStep EntityMongoDB.castOid) (Value.obj g) =
      (p.filter normalPath).foldl (convStep EntityMongoDB.castOid) (Value.obj g) := by
  induction p generalizing g with
  | nil => rfl
  | cons q pt ih =>
      by_cases hq : normalPath q = true
      · rw [List.foldl_cons, List.filter_cons_of_pos hq, List.foldl_cons]
        obtain ⟨g2, hg2, hl1, hl2, _, _, _⟩ :=
          convStep_normal_shape EntityMongoDB.castOid g q hq
        rw [hg2]
        exact ih g2 (hl1.trans hid)
          (by rcases hnid with h | ⟨s, h⟩
              · exact Or.inl (hl2.trans h)
              · exact Or.inr ⟨s, hl2.trans h⟩)
      · rw [List.foldl_cons, List.filter_cons_of_neg (by simp [hq])]
        have hstep : convStep EntityMongoDB.castOid (Value.obj g) q = Value.obj g := by
          cases q with
          | nil => exact convStep_nil_path _ _
          | cons k rest =>
              have hk : k = "id" ∨ k = "_id" := by
                by_contra hcon
                push_neg at hcon
                exact hq (by simp [normalPath, hcon.1, hcon.2])
              rcases hk with he | he
              · subst he
                exact convStep_skipkey _ _ _ _ hid
              · subst he
                rcases hnid with h | ⟨s, h⟩
                · exact convStep_skipkey _ _ _ _ h
                · exact convStep_selfcast _ _ _ _ _ h rfl rfl
                    (fun cf h2 => Value.noConfusion h2)
        rw [hstep]
        exact ih g hid hnid

theorem fold_elim_from (p : List (List String)) (g : VFields)
    (hnid : lookupF "_id" g = .undef)
    (hid : lookupF "id" g = .undef ∨ ∃ s, lookupF "id" g = .vstr s) :
    p.foldl (convStep EntityMongoDB.castStr) (Value.obj g) =
      (p.filter normalPath).foldl (convStep EntityMongoDB.castStr) (Value.obj g) := by
  induction p generalizing g with
  | nil => rfl
  | cons q pt ih =>
      by_cases hq : normalPath q = true
      · rw [List.foldl_cons, List.filter_cons_of_pos hq, List.foldl_cons]
        obtain ⟨g2, hg2, hl1, hl2, _, _, _⟩ :=
          convStep_normal_shape EntityMongoDB.castStr g q hq
        rw [hg2]
        exact ih g2 (hl2.trans hnid)
          (by rcases hid with h | ⟨s, h⟩
              · exact Or.inl (hl1.trans h)
              · exact Or.inr ⟨s, hl1.trans h⟩)
      · rw [List.foldl_cons, List.filter_cons_of_neg (by simp [hq])]
        have hstep : convStep EntityMongoDB.castStr (Value.obj g) q = Value.obj g := by
          cases q with
          | nil => exact convStep_nil_path _ _
          | cons k rest =>
              have hk : k = "id" ∨ k = "_id" := by
                by_contra hcon
                push_neg at hcon
                exact hq (by simp [normalPath, hcon.1, hcon.2])
              rcases hk with he | he
              · subst he
                rcases hid with h | ⟨s, h⟩
                · exact convStep_skipkey _ _ _ _ h
                · by_cases hs : s = ""
                  · subst hs
                    exact convStep_falsy_nonobj _ _ _ _ (by rw [h]; rfl)
                      (by rw [h]; exact fun cf h2 => Value.noConfusion h2)
                  · exact convStep_selfcast _ _ _ _ _ h (by simp [truthy, hs]) rfl
                      (fun cf h2 => Value.noConfusion h2)
              · subst he
                exact convStep_skipkey _ _ _ _ hnid
        rw [hstep]
        exact ih g hnid hid

theorem convStep_fcons_comm (f : Value → Value) (g : VFields) (a : String) (x : Value)
    (k : String) (rest : List String) (hak : k ≠ a) :
    convStep f (Value.obj (.fcons a x g)) (k :: rest) =
      Value.obj (.fcons a x (asFields (convStep f (Value.obj g) (k :: rest)))) := by
  have hak2 : ¬(a = k) := fun he => hak he.symm
  have hla : lookupF k (.fcons a x g) = lookupF k g := by
    simp [lookupF, hak2]
  have hget : getPath (k :: rest) (Value.obj (.fcons a x g)) =
      getPath (k :: rest) (Value.obj g) := by
    cases rest with
    | nil => rw [getPath_single, getPath_single, lookupV_obj, lookupV_obj, hla]
    | cons a2 b2 => rw [getPath_cons2, getPath_cons2, lookupV_obj, lookupV_obj, hla]
  by_cases ht : truthy (getPath (k :: rest) (Value.obj g)) = true
  · cases rest with
    | nil =>
        simp only [convStep, hget, ht, if_pos, setPath_single_obj,
          insertJS_fcons_other a k x _ g (fun he => hak he.symm)]
        rfl
    | cons a2 b2 =>
        simp only [convStep, hget, ht, if_pos]
        rw [setPath_cons2_child, setPath_cons2_child, hla,
          insertJS_fcons_other a k x _ g (fun he => hak he.symm)]
        rfl
  · simp [convStep, hget, ht, asFields]

theorem fold_fcons_comm (f : Value → Value) (p : List (List String)) (a : String)
    (x : Value) (g : VFields)
    (hp : ∀ q ∈ p, normalPath q = true) (ha : a = "id" ∨ a = "_id") :
    p.foldl (convStep f) (Value.obj (.fcons a x g)) =
      Value.obj (.fcons a x (asFields (p.foldl (convStep f) (Value.obj g)))) := by
  induction p generalizing g with
  | nil => rfl
  | cons q pt ih =>
      obtain ⟨k, rest, rfl, hk1, hk2⟩ := normalPath_parts (hp q (by simp))
      have hak : k ≠ a := by
        rcases ha with he | he
        · rw [he]; exact hk1
        · rw [he]; exact hk2
      rw [List.foldl_cons, convStep_fcons_comm f g a x k rest hak, List.foldl_cons]
      obtain ⟨g2, hg2, _, _, _, _, _⟩ :=
        convStep_normal_shape f g (k :: rest) (hp _ (by simp))
      rw [hg2]
      exact ih g2 (fun q2 hm => hp q2 (List.mem_cons_of_mem _ hm))

theorem lookupF_erase_other (g : VFields) (a k : String) (h : k ≠ a) :
    lookupF k (eraseF a g) = lookupF k g := by
  induction g using VFields.inductionOn with
  | nil => rfl
  | fcons b y t ih =>
      by_cases hb : b = a
      · subst hb
        have hbk : ¬(b = k) := fun he => h he.symm
        simp [eraseF, lookupF, hbk, ih]
      · by_cases hbk : b = k
        · subst hbk
          simp [eraseF, hb, lookupF]
        · simp [eraseF, hb, lookupF, hbk, ih]

theorem insertJS_erase_comm (g : VFields) (a k : String) (c : Value) (h : k ≠ a) :
    insertJS (eraseF a g) k c = eraseF a (insertJS g k c) := by
  induction g using VFields.inductionOn with
  | nil => simp [eraseF, insertJS, h]
  | fcons b y t ih =>
      by_cases hb : b = a
      · subst hb
        have hbk : ¬(b = k) := fun he => h he.symm
        simp [eraseF, insertJS, hbk, ih]
      · by_cases hbk : b = k
        · subst hbk
          simp [eraseF, insertJS, hb]
        · simp [eraseF, insertJS, hb, hbk, ih]

theorem convStep_erase_comm (f : Value → Value) (g : VFields) (a : String)
    (k : String) (rest : List String) (hak : k ≠ a) :
    convStep f (Value.obj (eraseF a g)) (k :: rest) =
      Value.obj (eraseF a (asFields (convStep f (Value.obj g) (k :: rest)))) := by
  have hla : lookupF k (eraseF a g) = lookupF k g := lookupF_erase_other g a k hak
  have hget : getPath (k :: rest) (Value.obj (eraseF a g)) =
      getPath (k :: rest) (Value.obj g) := by
    cases rest with
    | nil => rw [getPath_single, getPath_single, lookupV_obj, lookupV_obj, hla]
    | cons a2 b2 => rw [getPath_cons2, getPath_cons2, lookupV_obj, lookupV_obj, hla]
  by_cases ht : truthy (getPath (k :: rest) (Value.obj g)) = true
  · cases rest with
    | nil =>
        simp only [convStep, hget, ht, if_pos, setPath_single_obj,
          insertJS_erase_comm g a k _ hak]
        rfl
    | cons a2 b2 =>
        simp only [convStep, hget, ht, if_pos]
        rw [setPath_cons2_child, setPath_cons2_child, hla,
          insertJS_erase_comm g a k _ hak]
        rfl
  · simp [convStep, hget, ht, asFields]

theorem fold_erase_comm (f : Value → Value) (p : List (List String)) (a : String)
    (g : VFields) (hp : ∀ q ∈ p, normalPath q = true) (ha : a = "id" ∨ a = "_id") :
    p.foldl (convStep f) (Value.obj (eraseF a g)) =
      Value.obj (eraseF a (asFields (p.foldl (convStep f) (Value.obj g)))) := by
  induction p generalizing g with
  | nil => rfl
  | cons q pt ih =>
      obtain ⟨k, rest, rfl, hk1, hk2⟩ := normalPath_parts (hp q (by simp))
      have hak : k ≠ a := by
        rcases ha with he | he
        · rw [he]; exact hk1
        · rw [he]; exact hk2
      rw [List.foldl_cons, convStep_erase_comm f g a k rest hak, List.foldl_cons]
      obtain ⟨g2, hg2, _, _, _, _, _⟩ :=
        convStep_normal_shape f g (k :: rest) (hp _ (by simp))
      rw [hg2]
      exact ih g2 (fun q2 hm => hp q2 (List.mem_cons_of_mem _ hm))

theorem mem_keysF_omitU (g : VFields) (k : String) (h : k ∈ keysF (omitU g)) :
    k ∈ keysF g := by
  induction g using VFields.inductionOn with
  | nil => simp [omitU, keysF] at h
  | fcons b y t ih =>
      cases y with
      | undef =>
          simp only [omitU] at h
          exact List.mem_cons_of_mem _ (ih h)
      | vnull =>
          simp only [omitU, keysF, List.mem_cons] at h ⊢
          rcases h with h | h
          · exact Or.inl h
          · exact Or.inr (ih h)
      | vbool b2 =>
          simp only [omitU, keysF, List.mem_cons] at h ⊢
          rcases h with h | h
          · exact Or.inl h
          · exact Or.inr (ih h)
      | vnum n =>
          simp only [omitU, keysF, List.mem_cons] at h ⊢
          rcases h with h | h
          · exact Or.inl h
          · exact Or.inr (ih h)
      | vstr s =>
          simp only [omitU, keysF, List.mem_cons] at h ⊢
          rcases h with h | h
          · exact Or.inl h
          · exact Or.inr (ih h)
      | oid s =>
          simp only [omitU, keysF, List.mem_cons] at h ⊢
          rcases h with h | h
          · exact Or.inl h
          · exact Or.inr (ih h)
      | arr l =>
          simp only [omitU, keysF, List.mem_cons] at h ⊢
          rcases h with h | h
          · exact Or.inl h
          · exact Or.inr (ih h)
      | obj fs =>
          simp only [omitU, keysF, List.mem_cons] at h ⊢
          rcases h with h | h
          · exact Or.inl h
          · exact Or.inr (ih h)

theorem NoDupF_omitU (g : VFields) (h : NoDupF g) : NoDupF (omitU g) := by
  induction g using VFields.inductionOn with
  | nil => exact h
  | fcons b y t ih =>
      have hnd0 : b ∉ keysF t ∧ (keysF t).Nodup := by
        simpa [NoDupF, keysF, List.nodup_cons] using h
      have iht := ih hnd0.2
      have hnotin : b ∉ keysF (omitU t) := fun hm => hnd0.1 (mem_keysF_omitU t b hm)
      cases y with
      | undef => exact iht
      | vnull => simpa [omitU, NoDupF, keysF, List.nodup_cons] using ⟨hnotin, iht⟩
      | vbool b2 => simpa [omitU, NoDupF, keysF, List.nodup_cons] using ⟨hnotin, iht⟩
      | vnum n => simpa [omitU, NoDupF, keysF, List.nodup_cons] using ⟨hnotin, iht⟩
      | vstr s => simpa [omitU, NoDupF, keysF, List.nodup_cons] using ⟨hnotin, iht⟩
      | oid s => simpa [omitU, NoDupF, keysF, List.nodup_cons] using ⟨hnotin, iht⟩
      | arr l => simpa [omitU, NoDupF, keysF, List.nodup_cons] using ⟨hnotin, iht⟩
      | obj fs => simpa [omitU, NoDupF, keysF, List.nodup_cons] using ⟨hnotin, iht⟩

theorem omitU_insert (g : VFields) (k : String) (c : Value)
    (hg : lookupF k g ≠ .undef) (hc : c ≠ .undef) :
    omitU (insertJS g k c) = insertJS (omitU g) k c := by
  induction g using VFields.inductionOn with
  | nil => exact absurd rfl hg
  | fcons b y t ih =>
      by_cases hb : b = k
      · subst hb
        have hy : y ≠ .undef := by simpa [lookupF] using hg
        cases c with
        | undef => exact absurd rfl hc
        | vnull =>
            cases y with
            | undef => exact absurd rfl hy
            | vnull => simp [insertJS, omitU]
            | vbool b2 => simp [insertJS, omitU]
            | vnum n => simp [insertJS, omitU]
            | vstr s => simp [insertJS, omitU]
            | oid s => simp [insertJS, omitU]
            | arr l => simp [insertJS, omitU]
            | obj fs => simp [insertJS, omitU]
        | vbool c2 =>
            cases y with
            | undef => exact absurd rfl hy
            | vnull => simp [insertJS, omitU]
            | vbool b2 => simp [insertJS, omitU]
            | vnum n => simp [insertJS, omitU]
            | vstr s => simp [insertJS, omitU]
            | oid s => simp [insertJS, omitU]
            | arr l => simp [insertJS, omitU]
            | obj fs => simp [insertJS, omitU]
        | vnum c2 =>
            cases y with
            | undef => exact absurd rfl hy
            | vnull => simp [insertJS, omitU]
            | vbool b2 => simp [insertJS, omitU]
            | vnum n => simp [insertJS, omitU]
            | vstr s => simp [insertJS, omitU]
            | oid s => simp [insertJS, omitU]
            | arr l => simp [insertJS, omitU]
            | obj fs => simp [insertJS, omitU]
        | vstr c2 =>
            cases y with
            | undef => exact absurd rfl hy
            | vnull => simp [insertJS, omitU]
            | vbool b2 => simp [insertJS, omitU]
            | vnum n => simp [insertJS, omitU]
            | vstr s => simp [insertJS, omitU]
            | oid s => simp [insertJS, omitU]
            | arr l => simp [insertJS, omitU]
            | obj fs => simp [insertJS, omitU]
        | oid c2 =>
            cases y with
            | undef => exact absurd rfl hy
            | vnull => simp [insertJS, omitU]
            | vbool b2 => simp [insertJS, omitU]
            | vnum n => simp [insertJS, omitU]
            | vstr s => simp [insertJS, omitU]
            | oid s => simp [insertJS, omitU]
            | arr l => simp [insertJS, omitU]
            | obj fs => simp [insertJS, omitU]
        | arr c2 =>
            cases y with
            | undef => exact absurd rfl hy
            | vnull => simp [insertJS, omitU]
            | vbool b2 => simp [insertJS, omitU]
            | vnum n => simp [insertJS, omitU]
            | vstr s => simp [insertJS, omitU]
            | oid s => simp [insertJS, omitU]
            | arr l => simp [insertJS, omitU]
            | obj fs => simp [insertJS, omitU]
        | obj c2 =>
            cases y with
            | undef => exact absurd rfl hy
            | vnull => simp [insertJS, omitU]
            | vbool b2 => simp [insertJS, omitU]
            | vnum n => simp [insertJS, omitU]
            | vstr s => simp [insertJS, omitU]
            | oid s => simp [insertJS, omitU]
            | arr l => simp [insertJS, omitU]
            | obj fs => simp [insertJS, omitU]
      · have hg2 : lookupF k t ≠ .undef := by simpa [lookupF, hb] using hg
        cases y with
        | undef => simp [insertJS, omitU, hb, ih hg2]
        | vnull => simp [insertJS, omitU, hb, ih hg2]
        | vbool b2 => simp [insertJS, omitU, hb, ih hg2]
        | vnum n => simp [insertJS, omitU, hb, ih hg2]
        | vstr s => simp [insertJS, omitU, hb, ih hg2]
        | oid s => simp [insertJS, omitU, hb, ih hg2]
        | arr l => simp [insertJS, omitU, hb, ih hg2]
        | obj fs => simp [insertJS, omitU, hb, ih hg2]

theorem castOid_ne_undef {w : Value} (h : truthy w = true) :
    EntityMongoDB.castOid w ≠ .undef := by
  cases w with
  | undef => simp [truthy] at h
  | vnull => simp [truthy] at h
  | vbool b => exact fun h2 => Value.noConfusion h2
  | vnum n => exact fun h2 => Value.noConfusion h2
  | vstr s => exact fun h2 => Value.noConfusion h2
  | oid s => exact fun h2 => Value.noConfusion h2
  | arr l => exact fun h2 => Value.noConfusion h2
  | obj fs => exact fun h2 => Value.noConfusion h2

theorem castStr_ne_undef (w : Value) : EntityMongoDB.castStr w ≠ .undef := by
  cases w with
  | undef => exact fun h2 => Value.noConfusion h2
  | vnull => exact fun h2 => Value.noConfusion h2
  | vbool b => cases b <;> exact fun h2 => Value.noConfusion h2
  | vnum n => exact fun h2 => Value.noConfusion h2
  | vstr s => exact fun h2 => Value.noConfusion h2
  | oid s => exact fun h2 => Value.noConfusion h2
  | arr l => exact fun h2 => Value.noConfusion h2
  | obj fs => exact fun h2 => Value.noConfusion h2

theorem asFields_obj (fs : VFields) : asFields (Value.obj fs) = fs := rfl

theorem convStep_omitU_comm (f : Value → Value) (g : VFields) (q : List String)
    (hnd : NoDupF g) (hf : ∀ w, truthy w = true → f w ≠ .undef) :
    convStep f (Value.obj (omitU g)) q =
      Value.obj (omitU (asFields (convStep f (Value.obj g) q))) := by
  cases q with
  | nil => rw [convStep_nil_path, convStep_nil_path]; rfl
  | cons k rest =>
      have hla : lookupF k (omitU g) = lookupF k g := lookupF_omitU k hnd
      have hget : getPath (k :: rest) (Value.obj (omitU g)) =
          getPath (k :: rest) (Value.obj g) := by
        cases rest with
        | nil => rw [getPath_single, getPath_single, lookupV_obj, lookupV_obj, hla]
        | cons a2 b2 => rw [getPath_cons2, getPath_cons2, lookupV_obj, lookupV_obj, hla]
      by_cases ht : truthy (getPath (k :: rest) (Value.obj g)) = true
      · cases rest with
        | nil =>
            have hlk : lookupF k g ≠ .undef := by
              rw [getPath_single, lookupV_obj] at ht
              exact truthy_ne_undef ht
            have hcne : f (getPath [k] (Value.obj g)) ≠ .undef := hf _ ht
            simp only [convStep, hget, ht, if_pos, setPath_single_obj, asFields_obj]
            rw [omitU_insert g k _ hlk hcne]
        | cons a2 b2 =>
            have hlk : lookupF k g ≠ .undef := by
              rw [getPath_cons2, lookupV_obj] at ht
              intro he
              rw [he, getPath_cons_undef] at ht
              simp [truthy] at ht
            simp only [convStep, hget, ht, if_pos]
            rw [setPath_cons2_child, setPath_cons2_child, hla]
            simp only [asFields_obj]
            have hobj : ∃ hs, setPath (a2 :: b2) (f (getPath (k :: a2 :: b2) (Value.obj g)))
                (asObjOrNil (lookupF k g)) = Value.obj hs := by
              cases hv : lookupF k g with
              | obj cf => exact setPath_obj_shape _ _ cf (by simp)
              | undef => exact setPath_obj_shape _ _ .nil (by simp)
              | vnull => exact setPath_obj_shape _ _ .nil (by simp)
              | vbool b3 => exact setPath_obj_shape _ _ .nil (by simp)
              | vnum n => exact setPath_obj_shape _ _ .nil (by simp)
              | vstr s => exact setPath_obj_shape _ _ .nil (by simp)
              | oid s => exact setPath_obj_shape _ _ .nil (by simp)
              | arr l => exact setPath_obj_shape _ _ .nil (by simp)
            obtain ⟨hs, hhs⟩ := hobj
            rw [omitU_insert g k _ hlk (by rw [hhs]; exact fun h2 => Value.noConfusion h2)]
      · simp [convStep, hget, ht, asFields]

theorem fold_omitU_comm (f : Value → Value) (p : List (List String)) (g : VFields)
    (hp : ∀ q ∈ p, normalPath q = true) (hnd : NoDupF g)
    (hf : ∀ w, truthy w = true → f w ≠ .undef) :
    p.foldl (convStep f) (Value.obj (omitU g)) =
      Value.obj (omitU (asFields (p.foldl (convStep f) (Value.obj g)))) := by
  induction p generalizing g with
  | nil => rfl
  | cons q pt ih =>
      rw [List.foldl_cons, convStep_omitU_comm f g q hnd hf, List.foldl_cons]
      obtain ⟨g2, hg2, _, _, _, _, hndp⟩ :=
        convStep_normal_shape f g q (hp q (by simp))
      rw [hg2]
      exact ih g2 (fun q2 hm => hp q2 (List.mem_cons_of_mem _ hm)) (hndp hnd)

-- ### Canonical form machinery

theorem norm_undef : Value.norm .undef = .undef := rfl

theorem norm_ne_undef {v : Value} (h : v ≠ .undef) : Value.norm v ≠ .undef := by
  cases v with
  | undef => exact absurd rfl h
  | vnull => exact fun h2 => Value.noConfusion h2
  | vbool b => exact fun h2 => Value.noConfusion h2
  | vnum n => exact fun h2 => Value.noConfusion h2
  | vstr s => exact fun h2 => Value.noConfusion h2
  | oid s => exact fun h2 => Value.noConfusion h2
  | arr l => exact fun h2 => Value.noConfusion h2
  | obj fs => exact fun h2 => Value.noConfusion h2

theorem normF_fcons (k : String) (v : Value) (t : VFields) :
    Value.normF (.fcons k v t) = .fcons k (Value.norm v) (Value.normF t) := rfl

theorem normF_omitU (g : VFields) : Value.normF (omitU g) = omitU (Value.normF g) := by
  induction g using VFields.inductionOn with
  | nil => rfl
  | fcons k v t ih =>
      cases v with
      | undef => simp [omitU, normF_fcons, norm_undef, ih]
      | vnull => simp [omitU, normF_fcons, Value.norm, ih]
      | vbool b => simp [omitU, normF_fcons, Value.norm, ih]
      | vnum n => simp [omitU, normF_fcons, Value.norm, ih]
      | vstr s => simp [omitU, normF_fcons, Value.norm, ih]
      | oid s => simp [omitU, normF_fcons, Value.norm, ih]
      | arr l =>
          rw [show omitU (VFields.fcons k (.arr l) t) = .fcons k (.arr l) (omitU t) from rfl,
            normF_fcons, normF_fcons, ih]
          rw [show Value.norm (.arr l) = .arr (Value.normL l) from rfl]
          rfl
      | obj fs =>
          rw [show omitU (VFields.fcons k (.obj fs) t) = .fcons k (.obj fs) (omitU t) from rfl,
            normF_fcons, normF_fcons, ih]
          rw [show Value.norm (.obj fs) =
            .obj (sortF (omitU (dedupF (Value.normF fs)))) from rfl]
          rfl

theorem keysF_normF (g : VFields) : keysF (Value.normF g) = keysF g := by
  induction g using VFields.inductionOn with
  | nil => rfl
  | fcons k v t ih => simp [normF_fcons, keysF, ih]

theorem eraseF_of_not_has (g : VFields) (k : String) (h : hasOwnF k g = false) :
    eraseF k g = g := by
  induction g using VFields.inductionOn with
  | nil => rfl
  | fcons b y t ih =>
      by_cases hb : b = k
      · rw [hb] at h; simp [hasOwnF] at h
      · simp only [hasOwnF, hb, if_false] at h
        simp [eraseF, hb, ih h]

theorem dedupF_of_NoDup (g : VFields) (h : NoDupF g) : dedupF g = g := by
  induction g using VFields.inductionOn with
  | nil => rfl
  | fcons k v t ih =>
      have hnd0 : k ∉ keysF t ∧ (keysF t).Nodup := by
        simpa [NoDupF, keysF, List.nodup_cons] using h
      rw [show dedupF (VFields.fcons k v t) = .fcons k v (eraseF k (dedupF t)) from rfl,
        ih hnd0.2, eraseF_of_not_has t k (by
          rcases hb : hasOwnF k t with _ | _
          · rfl
          · exact absurd ((hasOwnF_true_iff t k).mp hb) hnd0.1)]

theorem norm_obj_nodup (g : VFields) (h : NoDupF g) :
    Value.norm (.obj g) = .obj (sortF (omitU (Value.normF g))) := by
  rw [show Value.norm (.obj g) = .obj (sortF (omitU (dedupF (Value.normF g)))) from rfl,
    dedupF_of_NoDup _ (by unfold NoDupF; rw [keysF_normF]; exact h)]

theorem omitU_idem (g : VFields) : omitU (omitU g) = omitU g := by
  induction g using VFields.inductionOn with
  | nil => rfl
  | fcons k v t ih =>
      cases v with
      | undef => simp [omitU, ih]
      | vnull => simp [omitU, ih]
      | vbool b => simp [omitU, ih]
      | vnum n => simp [omitU, ih]
      | vstr s => simp [omitU, ih]
      | oid s => simp [omitU, ih]
      | arr l => simp [omitU, ih]
      | obj fs => simp [omitU, ih]

theorem omitU_append (a b : VFields) :
    omitU (appendF a b) = appendF (omitU a) (omitU b) := by
  induction a using VFields.inductionOn with
  | nil => rfl
  | fcons k v t ih =>
      cases v with
      | undef => simp [appendF, omitU, ih]
      | vnull => simp [appendF, omitU, ih]
      | vbool b2 => simp [appendF, omitU, ih]
      | vnum n => simp [appendF, omitU, ih]
      | vstr s => simp [appendF, omitU, ih]
      | oid s => simp [appendF, omitU, ih]
      | arr l => simp [appendF, omitU, ih]
      | obj fs => simp [appendF, omitU, ih]

theorem normF_append (a b : VFields) :
    Value.normF (appendF a b) = appendF (Value.normF a) (Value.normF b) := by
  induction a using VFields.inductionOn with
  | nil => rfl
  | fcons k v t ih => simp [appendF, normF_fcons, ih]

theorem insertSorted_comm (l : VFields) (k1 k2 : String) (v1 v2 : Value) (h : k1 ≠ k2) :
    insertSorted k1 v1 (insertSorted k2 v2 l) =
      insertSorted k2 v2 (insertSorted k1 v1 l) := by
  have hlt : k1 < k2 ∨ k2 < k1 := Ne.lt_or_lt h
  induction l using VFields.inductionOn with
  | nil =>
      rcases hlt with h12 | h21
      · simp [insertSorted, h12, not_lt_of_gt h12]
      · simp [insertSorted, h21, not_lt_of_gt h21]
  | fcons b w t ih =>
      by_cases hb2 : k2 < b
      · by_cases hb1 : k1 < b
        · rcases hlt with h12 | h21
          · simp [insertSorted, hb1, hb2, h12, not_lt_of_gt h12]
          · simp [insertSorted, hb1, hb2, h21, not_lt_of_gt h21]
        · have h21 : k2 < k1 := by
            rcases hlt with h12 | h21
            · exact absurd (lt_trans h12 hb2) hb1
            · exact h21
          simp [insertSorted, hb1, hb2, h21, not_lt_of_gt h21]
      · by_cases hb1 : k1 < b
        · have h12 : k1 < k2 := by
            rcases hlt with h12 | h21
            · exact h12
            · exact absurd (lt_trans h21 hb1) hb2
          simp [insertSorted, hb1, hb2, h12, not_lt_of_gt h12]
        · simp [insertSorted, hb1, hb2, ih]

theorem sortF_append_mid (A B : VFields) (k : String) (x : Value)
    (h : hasOwnF k A = false) :
    sortF (appendF A (.fcons k x B)) = insertSorted k x (sortF (appendF A B)) := by
  induction A using VFields.inductionOn with
  | nil => rfl
  | fcons b w t ih =>
      have hbk : ¬(b = k) := by
        intro he; rw [he] at h; simp [hasOwnF] at h
      have ht : hasOwnF k t = false := by simpa [hasOwnF, hbk] using h
      rw [show appendF (VFields.fcons b w t) (.fcons k x B) =
          .fcons b w (appendF t (.fcons k x B)) from rfl,
        show sortF (VFields.fcons b w (appendF t (.fcons k x B))) =
          insertSorted b w (sortF (appendF t (.fcons k x B))) from rfl,
        ih ht,
        show sortF (appendF (VFields.fcons b w t) B) =
          insertSorted b w (sortF (appendF t B)) from rfl]
      exact insertSorted_comm _ _ _ _ _ hbk

theorem lookup_decomp (r : VFields) (k : String) (h : hasOwnF k r = true) :
    ∃ u t, r = appendF u (.fcons k (lookupF k r) t) ∧ hasOwnF k u = false := by
  induction r using VFields.inductionOn with
  | nil => simp [hasOwnF] at h
  | fcons b y rt ih =>
      by_cases hb : b = k
      · subst hb
        exact ⟨.nil, rt, by simp [appendF, lookupF], rfl⟩
      · have ht : hasOwnF k rt = true := by simpa [hasOwnF, hb] using h
        obtain ⟨u, t, heq, hu⟩ := ih ht
        refine ⟨.fcons b y u, t, ?_, ?_⟩
        · rw [show appendF (VFields.fcons b y u) (.fcons k (lookupF k (.fcons b y rt)) t) =
            .fcons b y (appendF u (.fcons k (lookupF k (.fcons b y rt)) t)) from rfl]
          rw [show lookupF k (VFields.fcons b y rt) = lookupF k rt by simp [lookupF, hb]]
          rw [← heq]
        · simp [hasOwnF, hb, hu]

theorem insertJS_append_decomp (u t : VFields) (k : String) (v c : Value)
    (hu : hasOwnF k u = false) :
    insertJS (appendF u (.fcons k v t)) k c = appendF u (.fcons k c t) := by
  induction u using VFields.inductionOn with
  | nil => simp [appendF, insertJS]
  | fcons b y ut ih =>
      have hbk : ¬(b = k) := by
        intro he; rw [he] at hu; simp [hasOwnF] at hu
      have hut : hasOwnF k ut = false := by simpa [hasOwnF, hbk] using hu
      simp [appendF, insertJS, hbk, ih hut]

theorem omitU_normF_insert_undef (r : VFields) (k : String)
    (h : lookupF k r = .undef) :
    omitU (Value.normF (insertJS r k .undef)) = omitU (Value.normF r) := by
  induction r using VFields.inductionOn with
  | nil => rfl
  | fcons b y t ih =>
      by_cases hb : b = k
      · subst hb
        have hy : y = .undef := by simpa [lookupF] using h
        subst hy
        simp [insertJS]
      · have ht : lookupF k t = .undef := by simpa [lookupF, hb] using h
        rw [insertJS_fcons_other b k y .undef t hb, normF_fcons, normF_fcons]
        cases hy : Value.norm y with
        | undef =>
            rw [show omitU (VFields.fcons b .undef (Value.normF (insertJS t k .undef))) =
              omitU (Value.normF (insertJS t k .undef)) from rfl,
              show omitU (VFields.fcons b .undef (Value.normF t)) =
                omitU (Value.normF t) from rfl, ih ht]
        | vnull => simp only [omitU, ih ht]
        | vbool b2 => simp only [omitU, ih ht]
        | vnum n => simp only [omitU, ih ht]
        | vstr s => simp only [omitU, ih ht]
        | oid s => simp only [omitU, ih ht]
        | arr l => simp only [omitU, ih ht]
        | obj fs => simp only [omitU, ih ht]

theorem fold_normal_shape (f : Value → Value) (p : List (List String)) (g : VFields)
    (hp : ∀ q ∈ p, normalPath q = true) :
    ∃ g2, p.foldl (convStep f) (Value.obj g) = Value.obj g2 ∧
      lookupF "id" g2 = lookupF "id" g ∧ lookupF "_id" g2 = lookupF "_id" g ∧
      hasOwnF "id" g2 = hasOwnF "id" g ∧ hasOwnF "_id" g2 = hasOwnF "_id" g ∧
      (NoDupF g → NoDupF g2) := by
  induction p generalizing g with
  | nil => exact ⟨g, rfl, rfl, rfl, rfl, rfl, id⟩
  | cons q pt ih =>
      obtain ⟨g1, hg1, l1, l2, o1, o2, nd1⟩ :=
        convStep_normal_shape f g q (hp q (by simp))
      obtain ⟨g2, hg2, m1, m2, q1, q2, nd2⟩ :=
        ih g1 (fun q2 hm => hp q2 (List.mem_cons_of_mem _ hm))
      exact ⟨g2, by rw [List.foldl_cons, hg1]; exact hg2,
        m1.trans l1, m2.trans l2, q1.trans o1, q2.trans o2, fun h => nd2 (nd1 h)⟩

theorem eraseF_append (a : String) (x y : VFields) :
    eraseF a (appendF x y) = appendF (eraseF a x) (eraseF a y) := by
  induction x using VFields.inductionOn with
  | nil => rfl
  | fcons b w t ih =>
      by_cases hb : b = a
      · simp [appendF, eraseF, hb, ih]
      · simp [appendF, eraseF, hb, ih]

theorem omitU_eraseF_lookup_undef (g : VFields) (a : String) (hnd : NoDupF g)
    (h : lookupF a g = .undef) : omitU (eraseF a g) = omitU g := by
  induction g using VFields.inductionOn with
  | nil => rfl
  | fcons b y t ih =>
      have hnd0 : b ∉ keysF t ∧ (keysF t).Nodup := by
        simpa [NoDupF, keysF, List.nodup_cons] using hnd
      by_cases hb : b = a
      · subst hb
        have hy : y = .undef := by simpa [lookupF] using h
        subst hy
        have ht : hasOwnF b t = false := by
          rcases hx : hasOwnF b t with _ | _
          · rfl
          · exact absurd ((hasOwnF_true_iff t b).mp hx) hnd0.1
        rw [show eraseF b (VFields.fcons b .undef t) = eraseF b t from by simp [eraseF],
          eraseF_of_not_has t b ht]
        rfl
      · have ht : lookupF a t = .undef := by simpa [lookupF, hb] using h
        rw [show eraseF a (VFields.fcons b y t) = .fcons b y (eraseF a t) from by
          simp [eraseF, hb]]
        cases y with
        | undef =>
            rw [show omitU (VFields.fcons b .undef (eraseF a t)) = omitU (eraseF a t)
              from rfl, show omitU (VFields.fcons b .undef t) = omitU t from rfl]
            exact ih hnd0.2 ht
        | vnull => simp only [omitU, ih hnd0.2 ht]
        | vbool b2 => simp only [omitU, ih hnd0.2 ht]
        | vnum n => simp only [omitU, ih hnd0.2 ht]
        | vstr s => simp only [omitU, ih hnd0.2 ht]
        | oid s => simp only [omitU, ih hnd0.2 ht]
        | arr l => simp only [omitU, ih hnd0.2 ht]
        | obj fs => simp only [omitU, ih hnd0.2 ht]

theorem goodP_insert_id (r : VFields) (q : List String) (hq : normalPath q = true)
    (h : goodP (Value.obj r) q) : goodP (Value.obj (insertJS r "id" .undef)) q := by
  obtain ⟨k, rest, rfl, hk1, hk2⟩ := normalPath_parts hq
  unfold goodP
  rw [getPath_obj_insert_other rest k "id" r .undef (fun he => hk1 he.symm)]
  exact h

theorem roundtrip_norm_id_undef (r : VFields) (hnd : NoDupF r)
    (h : lookupF "id" r = .undef) :
    Value.norm (.obj (omitU (insertJS r "id" .undef))) = Value.norm (.obj r) := by
  have hnd1 : NoDupF (insertJS r "id" .undef) := NoDupF_insert _ _ hnd
  rw [norm_obj_nodup _ (NoDupF_omitU _ hnd1), norm_obj_nodup r hnd,
    normF_omitU, omitU_idem, omitU_normF_insert_undef r "id" h]

theorem hasOwnF_omitU_normF_of_not_has (u : VFields) (k : String)
    (h : hasOwnF k u = false) : hasOwnF k (omitU (Value.normF u)) = false := by
  rcases hx : hasOwnF k (omitU (Value.normF u)) with _ | _
  · rfl
  · exfalso
    have hm : k ∈ keysF (Value.normF u) :=
      mem_keysF_omitU _ _ ((hasOwnF_true_iff _ _).mp hx)
    rw [keysF_normF] at hm
    rw [(hasOwnF_true_iff u k).mpr hm] at h
    exact Bool.noConfusion h

theorem roundtrip_norm_id_str (r : VFields) (s : String) (hnd : NoDupF r)
    (h : lookupF "id" r = .vstr s) :
    Value.norm (.obj (.fcons "id" (.vstr s) (omitU (insertJS r "id" .undef)))) =
      Value.norm (.obj r) := by
  have hown : hasOwnF "id" r = true :=
    hasOwnF_of_lookup_ne r "id" (by rw [h]; exact fun h2 => Value.noConfusion h2)
  obtain ⟨u, t, heq, hu⟩ := lookup_decomp r "id" hown
  rw [h] at heq
  have hnd1 : NoDupF (insertJS r "id" .undef) := NoDupF_insert _ _ hnd
  have hoU : hasOwnF "id" (omitU (insertJS r "id" .undef)) = false :=
    hasOwnF_omitU_of_lookup "id" (lookupF_insert_self r "id" .undef) hnd1
  have hndL : NoDupF (.fcons "id" (.vstr s) (omitU (insertJS r "id" .undef))) := by
    have h1 : "id" ∉ keysF (omitU (insertJS r "id" .undef)) := fun hm => by
      rw [(hasOwnF_true_iff _ _).mpr hm] at hoU
      exact Bool.noConfusion hoU
    simpa [NoDupF, keysF, List.nodup_cons] using ⟨h1, NoDupF_omitU _ hnd1⟩
  rw [norm_obj_nodup _ hndL, norm_obj_nodup r hnd, normF_fcons,
    show Value.norm (.vstr s) = .vstr s from rfl,
    show omitU (VFields.fcons "id" (.vstr s)
        (Value.normF (omitU (insertJS r "id" .undef)))) =
      .fcons "id" (.vstr s) (omitU (Value.normF (omitU (insertJS r "id" .undef))))
      from rfl,
    normF_omitU, omitU_idem]
  have hins : insertJS r "id" .undef = appendF u (.fcons "id" .undef t) := by
    rw [heq]
    exact insertJS_append_decomp u t "id" (.vstr s) .undef hu
  rw [hins, normF_append, omitU_append,
    show Value.normF (VFields.fcons "id" .undef t) =
      .fcons "id" .undef (Value.normF t) from rfl,
    show omitU (VFields.fcons "id" .undef (Value.normF t)) = omitU (Value.normF t)
      from rfl,
    show sortF (VFields.fcons "id" (.vstr s)
        (appendF (omitU (Value.normF u)) (omitU (Value.normF t)))) =
      insertSorted "id" (.vstr s)
        (sortF (appendF (omitU (Value.normF u)) (omitU (Value.normF t)))) from rfl,
    heq, normF_append, omitU_append,
    show Value.normF (VFields.fcons "id" (.vstr s) t) =
      .fcons "id" (.vstr s) (Value.normF t) from rfl,
    show omitU (VFields.fcons "id" (.vstr s) (Value.normF t)) =
      .fcons "id" (.vstr s) (omitU (Value.normF t)) from rfl,
    sortF_append_mid _ _ "id" (.vstr s) (hasOwnF_omitU_normF_of_not_has u "id" hu)]

theorem lookupF_fcons_self (k : String) (x : Value) (t : VFields) :
    lookupF k (.fcons k x t) = x := by simp [lookupF]

theorem lookupF_fcons_other {k2 k : String} (x : Value) (t : VFields) (h : k2 ≠ k) :
    lookupF k (.fcons k2 x t) = lookupF k t := by simp [lookupF, h]

/-- Exact output of the composed codec: with a well-formed record (unique
keys, no own `_id`), `fromDoc (toDoc r p) p` is the original record with
its `id` field re-inserted (absent stays a ghost dropped by the final
omit, a string identifier comes back in front). -/
theorem codec_roundtrip_core (r : VFields) (p : List (List String))
    (hnd : NoDupF r) (hpnd : p.Nodup)
    (hnoid : hasOwnF "_id" r = false)
    (hp : ∀ q ∈ p, goodP (Value.obj r) q) :
    (lookupF "id" r = .undef →
      EntityMongoDB.fromDoc (EntityMongoDB.toDoc (Value.obj r) p) p =
        Value.obj (omitU (insertJS r "id" .undef))) ∧
    (∀ s, lookupF "id" r = .vstr s → isIdStr s = true →
      EntityMongoDB.fromDoc (EntityMongoDB.toDoc (Value.obj r) p) p =
        Value.obj (.fcons "id" (.vstr s) (omitU (insertJS r "id" .undef)))) := by
  have hpf : ∀ q ∈ p.filter normalPath, normalPath q = true :=
    fun q hm => (List.mem_filter.mp hm).2
  have hpfnd : (p.filter normalPath).Nodup := hpnd.filter _
  have hgood1 : ∀ q ∈ p.filter normalPath, goodP (Value.obj (insertJS r "id" .undef)) q :=
    fun q hm => goodP_insert_id r q (hpf q hm) (hp q (List.mem_filter.mp hm).1)
  have hlid_r1 : lookupF "id" (insertJS r "id" .undef) = .undef :=
    lookupF_insert_self r "id" .undef
  have hlnid_r1 : lookupF "_id" (insertJS r "id" .undef) = .undef := by
    rw [lookupF_insert_other r .undef (by decide)]
    exact lookupF_of_not_has r "_id" hnoid
  have hndr1 : NoDupF (insertJS r "id" .undef) := NoDupF_insert _ _ hnd
  obtain ⟨W1, hW1, wl1, wl2, wo1, wo2, wnd⟩ :=
    fold_normal_shape EntityMongoDB.castOid (p.filter normalPath)
      (insertJS r "id" .undef) hpf
  have hW_id : lookupF "id" W1 = .undef := wl1.trans hlid_r1
  have hW_nid : lookupF "_id" W1 = .undef := wl2.trans hlnid_r1
  have hndW : NoDupF W1 := wnd hndr1
  have hndoW : NoDupF (omitU W1) := NoDupF_omitU _ hndW
  have hid_oW : hasOwnF "id" (omitU W1) = false :=
    hasOwnF_omitU_of_lookup "id" hW_id hndW
  have hnid_oW : hasOwnF "_id" (omitU W1) = false :=
    hasOwnF_omitU_of_lookup "_id" hW_nid hndW
  have hmain : (p.filter normalPath).foldl (convStep EntityMongoDB.castStr)
      (Value.obj W1) = Value.obj (insertJS r "id" .undef) := by
    rw [← hW1]
    exact fold_codec_roundtrip _ _ hpfnd hgood1
  have hEQB : (p.filter normalPath).foldl (convStep EntityMongoDB.castStr)
      (Value.obj (omitU W1)) = Value.obj (omitU (insertJS r "id" .undef)) := by
    rw [fold_omitU_comm EntityMongoDB.castStr _ W1 hpf hndW
      (fun w _ => castStr_ne_undef w), hmain, asFields_obj]
  constructor
  · -- the record has no id: the seed's native key is undefined
    intro hid0
    have hseed : EntityMongoDB.toDocInit (Value.obj r) =
        .fcons "_id" .undef (insertJS r "id" .undef) := by
      rw [toDocInit_shape r hnd hnoid, hid0]
      rfl
    have htoDoc : EntityMongoDB.toDoc (Value.obj r) p = Value.obj (omitU W1) := by
      unfold EntityMongoDB.toDoc
      rw [toDocStep_eq_conv, hseed,
        fold_elim_to p _ ((lookupF_fcons_other _ _ (by decide)).trans hlid_r1)
          (Or.inl (lookupF_fcons_self _ _ _)),
        fold_fcons_comm EntityMongoDB.castOid _ "_id" .undef _ hpf (Or.inr rfl),
        hW1, asFields_obj]
      rfl
    have hfrseed : EntityMongoDB.fromDocInit (Value.obj (omitU W1)) =
        .fcons "id" .undef (insertJS (omitU W1) "_id" .undef) := by
      unfold EntityMongoDB.fromDocInit
      rw [show lookupV "_id" (Value.obj (omitU W1)) = lookupF "_id" (omitU W1)
          from rfl,
        lookupF_omitU "_id" hndW, hW_nid,
        show (if truthy Value.undef then jsToString Value.undef else Value.undef) =
          Value.undef from rfl,
        show asFields (Value.obj (omitU W1)) = omitU W1 from rfl,
        spread_disjoint (omitU W1) _ ?_ hndoW, appendF_single,
        insertJS_fcons_other _ _ _ _ _ (by decide)]
      intro k hk
      have hne : ¬("id" = k) := fun he => by
        rw [← he, hid_oW] at hk
        exact Bool.noConfusion hk
      simp [hasOwnF, hne]
    have hM_nid : lookupF "_id" (insertJS (omitU W1) "_id" .undef) = .undef :=
      lookupF_insert_self _ _ _
    have hndM : NoDupF (insertJS (omitU W1) "_id" .undef) := NoDupF_insert _ _ hndoW
    have hMer : eraseF "_id" (insertJS (omitU W1) "_id" .undef) = omitU W1 := by
      rw [insertJS_not_has _ _ _ hnid_oW, eraseF_append,
        eraseF_of_not_has _ _ hnid_oW,
        show eraseF "_id" (VFields.fcons "_id" Value.undef VFields.nil) = VFields.nil
          from by simp [eraseF],
        appendF_nil]
    obtain ⟨F1, hF1, fl1, fl2, fo1, fo2, fnd⟩ :=
      fold_normal_shape EntityMongoDB.castStr (p.filter normalPath)
        (insertJS (omitU W1) "_id" .undef) hpf
    have hF_nid : lookupF "_id" F1 = .undef := fl2.trans hM_nid
    have hfold_from : p.foldl (convStep EntityMongoDB.castStr)
        (Value.obj (.fcons "id" .undef (insertJS (omitU W1) "_id" .undef))) =
        Value.obj (.fcons "id" .undef F1) := by
      rw [fold_elim_from p _ ((lookupF_fcons_other _ _ (by decide)).trans hM_nid)
          (Or.inl (lookupF_fcons_self _ _ _)),
        fold_fcons_comm EntityMongoDB.castStr _ "id" .undef _ hpf (Or.inl rfl),
        hF1, asFields_obj]
    have herase : eraseF "_id" F1 = omitU (insertJS r "id" .undef) := by
      have h1 := fold_erase_comm EntityMongoDB.castStr (p.filter normalPath)
        "_id" (insertJS (omitU W1) "_id" .undef) hpf (Or.inr rfl)
      rw [hMer, hF1, asFields_obj, hEQB] at h1
      exact (Value.obj.inj h1).symm
    have homF1 : omitU F1 = omitU (insertJS r "id" .undef) := by
      rw [← omitU_eraseF_lookup_undef F1 "_id" (fnd hndM) hF_nid, herase, omitU_idem]
    rw [htoDoc]
    unfold EntityMongoDB.fromDoc
    rw [fromDocStep_eq_conv, hfrseed, hfold_from]
    rw [show EntityMongoDB.omitUV (Value.obj (.fcons "id" .undef F1)) =
      Value.obj (omitU F1) from rfl, homF1]
  · -- the record has a string id: it travels through the native key
    intro s hid0 hs
    have htr : truthy (Value.vstr s) = true := by
      simp [truthy]
      exact isIdStr_ne_empty hs
    have hseed : EntityMongoDB.toDocInit (Value.obj r) =
        .fcons "_id" (.oid s) (insertJS r "id" .undef) := by
      rw [toDocInit_shape r hnd hnoid, hid0, if_pos htr]
      rfl
    have htoDoc : EntityMongoDB.toDoc (Value.obj r) p =
        Value.obj (.fcons "_id" (.oid s) (omitU W1)) := by
      unfold EntityMongoDB.toDoc
      rw [toDocStep_eq_conv, hseed,
        fold_elim_to p _ ((lookupF_fcons_other _ _ (by decide)).trans hlid_r1)
          (Or.inr ⟨s, lookupF_fcons_self _ _ _⟩),
        fold_fcons_comm EntityMongoDB.castOid _ "_id" (.oid s) _ hpf (Or.inr rfl),
        hW1, asFields_obj]
      rfl
    have hndD2 : NoDupF (.fcons "_id" (.oid s) (omitU W1)) := by
      have h1 : "_id" ∉ keysF (omitU W1) := fun hm => by
        rw [(hasOwnF_true_iff _ _).mpr hm] at hnid_oW
        exact Bool.noConfusion hnid_oW
      simpa [NoDupF, keysF, List.nodup_cons] using ⟨h1, hndoW⟩
    have hfrseed : EntityMongoDB.fromDocInit
        (Value.obj (.fcons "_id" (.oid s) (omitU W1))) =
        .fcons "id" (.vstr s) (.fcons "_id" .undef (omitU W1)) := by
      unfold EntityMongoDB.fromDocInit
      rw [show lookupV "_id" (Value.obj (.fcons "_id" (.oid s) (omitU W1))) =
          Value.oid s from lookupF_fcons_self _ _ _,
        show (if truthy (Value.oid s) then jsToString (Value.oid s) else Value.undef) =
          Value.vstr s from rfl,
        show asFields (Value.obj (.fcons "_id" (.oid s) (omitU W1))) =
          .fcons "_id" (.oid s) (omitU W1) from rfl,
        spread_disjoint _ _ ?_ hndD2, appendF_single,
        insertJS_fcons_other _ _ _ _ _ (by decide),
        show insertJS (VFields.fcons "_id" (.oid s) (omitU W1)) "_id" .undef =
          .fcons "_id" .undef (omitU W1) from by simp [insertJS]]
      intro k hk
      have hne : ¬("id" = k) := fun he => by
        rw [← he] at hk
        rw [show hasOwnF "id" (VFields.fcons "_id" (.oid s) (omitU W1)) =
          hasOwnF "id" (omitU W1) from by simp [hasOwnF], hid_oW] at hk
        exact Bool.noConfusion hk
      simp [hasOwnF, hne]
    have hfold_from : p.foldl (convStep EntityMongoDB.castStr)
        (Value.obj (.fcons "id" (.vstr s) (.fcons "_id" .undef (omitU W1)))) =
        Value.obj (.fcons "id" (.vstr s)
          (.fcons "_id" .undef (omitU (insertJS r "id" .undef)))) := by
      rw [fold_elim_from p _
          ((lookupF_fcons_other _ _ (by decide)).trans (lookupF_fcons_self _ _ _))
          (Or.inr ⟨s, lookupF_fcons_self _ _ _⟩),
        fold_fcons_comm EntityMongoDB.castStr _ "id" (.vstr s) _ hpf (Or.inl rfl),
        fold_fcons_comm EntityMongoDB.castStr _ "_id" .undef _ hpf (Or.inr rfl),
        hEQB, asFields_obj]
      rfl
    rw [htoDoc]
    unfold EntityMongoDB.fromDoc
    rw [fromDocStep_eq_conv, hfrseed, hfold_from]
    rw [show EntityMongoDB.omitUV (Value.obj (.fcons "id" (.vstr s)
        (.fcons "_id" .undef (omitU (insertJS r "id" .undef))))) =
      Value.obj (.fcons "id" (.vstr s) (omitU (omitU (insertJS r "id" .undef))))
      from rfl, omitU_idem]

-- ### Claim C1

/-- Claim C1 (amended): for every record with unique keys and no own
native `_id` field, whose portable `id` and declared identifier paths
(pairwise distinct) are absent or valid identifier values,
`fromDoc (toDoc r p) p` is semantically equivalent to `r`.  (The original
unqualified claim fails on records carrying their own `_id` field, see
the counterexample.) -/
theorem claim_C1_roundtrip_amended (r : VFields) (p : List (List String))
    (hnd : NoDupF r) (hpnd : p.Nodup)
    (hnoid : hasOwnF "_id" r = false)
    (hid : lookupF "id" r = .undef ∨ isIdV (lookupF "id" r) = true)
    (hp : ∀ q ∈ p, goodP (Value.obj r) q) :
    jsEquiv (EntityMongoDB.fromDoc (EntityMongoDB.toDoc (Value.obj r) p) p)
      (Value.obj r) := by
  obtain ⟨h1, h2⟩ := codec_roundtrip_core r p hnd hpnd hnoid hp
  unfold jsEquiv
  rcases hid with hu | hv
  · rw [h1 hu]
    exact roundtrip_norm_id_undef r hnd hu
  · cases hx : lookupF "id" r with
    | undef =>
        rw [h1 hx]
        exact roundtrip_norm_id_undef r hnd hx
    | vstr s =>
        have hs : isIdStr s = true := by
          rw [hx] at hv
          simpa [isIdV] using hv
        rw [h2 s hx hs]
        exact roundtrip_norm_id_str r s hnd hx
    | vnull => rw [hx] at hv; exact Bool.noConfusion hv
    | vbool b => rw [hx] at hv; exact Bool.noConfusion hv
    | vnum n => rw [hx] at hv; exact Bool.noConfusion hv
    | oid s => rw [hx] at hv; exact Bool.noConfusion hv
    | arr l => rw [hx] at hv; exact Bool.noConfusion hv
    | obj fs => rw [hx] at hv; exact Bool.noConfusion hv

/-- Witness for C1 on a concrete record with a declared identifier path:
`{name: "Ada", ref: <24-hex>}` with path set `[["ref"]]`. -/
theorem claim_C1_roundtrip_amended_witness :
    NoDupF (.fcons "name" (.vstr "Ada") (.fcons "ref"
      (.vstr "0123456789abcdef01234567") .nil)) ∧
    hasOwnF "_id" (.fcons "name" (.vstr "Ada") (.fcons "ref"
      (.vstr "0123456789abcdef01234567") .nil)) = false ∧
    jsEquiv
      (EntityMongoDB.fromDoc
        (EntityMongoDB.toDoc
          (Value.obj (.fcons "name" (.vstr "Ada") (.fcons "ref"
            (.vstr "0123456789abcdef01234567") .nil))) [["ref"]]) [["ref"]])
      (Value.obj (.fcons "name" (.vstr "Ada") (.fcons "ref"
        (.vstr "0123456789abcdef01234567") .nil))) := by
  refine ⟨by unfold NoDupF; decide, rfl, ?_⟩
  exact claim_C1_roundtrip_amended _ [["ref"]] (by unfold NoDupF; decide)
    (by decide) rfl (Or.inl rfl)
    (fun q hq => by
      rw [List.mem_singleton.mp hq]
      exact Or.inr (by decide))

/-- Counterexample to the original C1: the record `{_id: <24-hex>}`
satisfies every hypothesis of the claim (`id` absent, the empty path set
vacuously valid), yet the round trip turns its own `_id` field into an
`id` field, which is not semantically equivalent to the original. -/
theorem claim_C1_counterexample :
    (lookupF "id" (.fcons "_id" (.vstr "0123456789abcdef01234567") .nil) = .undef ∨
      isIdV (lookupF "id"
        (.fcons "_id" (.vstr "0123456789abcdef01234567") .nil)) = true) ∧
    (∀ q ∈ ([] : List (List String)),
      goodP (Value.obj (.fcons "_id" (.vstr "0123456789abcdef01234567") .nil)) q) ∧
    ¬ jsEquiv
      (EntityMongoDB.fromDoc (EntityMongoDB.toDoc
        (Value.obj (.fcons "_id" (.vstr "0123456789abcdef01234567") .nil)) []) [])
      (Value.obj (.fcons "_id" (.vstr "0123456789abcdef01234567") .nil)) :=
  ⟨Or.inl rfl, fun q hq => absurd hq (List.not_mem_nil q),
   fun h => Bool.noConfusion (congrArg (hasOwnV "_id") h)⟩
